import Mathlib

/-
Verification of the MSAUDA1PB search-engine core against its specification.

This file shallowly embeds the Python sources:
  index/builders.py, index/access.py, query_processing/detection.py,
  query_processing/boolean.py, query_processing/wildcard.py,
  query_processing/proximity.py, query_processing/query_process.py,
  ranking/rankers.py.

Embedding conventions:
  - Python `str` is `String` (token/term level) or `List Char` (character level);
    both views are related by `String.toList`.
  - Python `int` document ids are `Nat` (all ids appearing in the repository's
    corpora and tests are non-negative).
  - A Python `set` is a duplicate-free `List` built with insert-if-absent; all
    set-valued claims are stated up to membership, which is exactly Python set
    equality.
  - A Python `dict` is a function into `Option`, `none` meaning "key absent";
    dict equality in Python ignores insertion order, which matches extensional
    equality of these functions.
  - Python `list.sort()` / `sorted()` on numbers and strings is
    `List.insertionSort` with the corresponding total order (code-point
    lexicographic for `str`, i.e. `lexLe` below).
  - Functions that `raise` are embedded with `Except String`.
  - `float` scoring arithmetic (ranking/rankers.py) is embedded over `ℝ` with
    `Real.log` for `math.log`; corpus statistics that Python stores as floats
    obtained from integer division are kept as `ℚ`.
-/

/-- Decidable equality for `Except`, used to evaluate embedded fallible
functions on concrete inputs. -/
instance exceptDecEq {ε α : Type} [DecidableEq ε] [DecidableEq α] :
    DecidableEq (Except ε α) := fun x y =>
  match x, y with
  | .ok a, .ok b =>
    if h : a = b then isTrue (by rw [h]) else isFalse (fun he => by cases he; exact h rfl)
  | .error a, .error b =>
    if h : a = b then isTrue (by rw [h]) else isFalse (fun he => by cases he; exact h rfl)
  | .ok _, .error _ => isFalse (fun he => by cases he)
  | .error _, .ok _ => isFalse (fun he => by cases he)

/-! ## Character and string utilities -/

/-- Python regex `\w` on ASCII input: letters, digits or underscore. -/
def isWordChar (c : Char) : Bool :=
  c.isAlpha || c.isDigit || c = '_'

/-- Python regex `\d` on ASCII input: decimal digits. -/
def isDigitChar (c : Char) : Bool :=
  c.isDigit

/-- Code-point lexicographic `<=` on character lists: Python `str` comparison. -/
def lexLe : List Char → List Char → Bool
  | [], _ => true
  | _ :: _, [] => false
  | a :: as, b :: bs =>
    if a.toNat < b.toNat then true
    else if b.toNat < a.toNat then false
    else lexLe as bs

/-- Code-point lexicographic `<` on character lists: Python `str` strict comparison. -/
def lexLt : List Char → List Char → Bool
  | [], [] => false
  | [], _ :: _ => true
  | _ :: _, [] => false
  | a :: as, b :: bs =>
    if a.toNat < b.toNat then true
    else if b.toNat < a.toNat then false
    else lexLt as bs

/-- Order used to embed Python `sorted()` over strings. -/
def strLe (a b : String) : Prop :=
  lexLe a.toList b.toList = true

instance : DecidableRel strLe := fun a b => by
  unfold strLe; infer_instance

/-- Python `str.strip()`: drop whitespace from both ends of a character list. -/
def pyStrip (l : List Char) : List Char :=
  ((l.dropWhile Char.isWhitespace).reverse.dropWhile Char.isWhitespace).reverse

/-- Helper for `pySplit`: `cur` is the current (reversed) run of
non-whitespace characters. -/
def pySplitAux : List Char → List Char → List (List Char)
  | [], cur => if cur = [] then [] else [cur.reverse]
  | c :: l, cur =>
    if c.isWhitespace then
      if cur = [] then pySplitAux l [] else cur.reverse :: pySplitAux l []
    else pySplitAux l (c :: cur)

/-- Python `str.split()` with no argument: maximal runs of non-whitespace. -/
def pySplit (l : List Char) : List (List Char) :=
  pySplitAux l []

/-- Python `str.split()` at the `String` level, returning strings. -/
def pySplitStr (s : String) : List String :=
  (pySplit s.toList).map (fun l => String.mk l)

/-- Python `needle in hay` substring test on character lists. -/
def containsSub (needle hay : List Char) : Bool :=
  hay.tails.any (fun t => needle.isPrefixOf t)

/-! ## Data model: postings keys and the persisted package

The source stores postings keys either as a `str` (single token) or as a
`tuple` of tokens (`TokGram = Union[str, Tuple[str, ...]]` in builders.py);
keys of different kinds are distinct dict keys. -/

inductive TokGram where
  | str : String → TokGram
  | tup : List String → TokGram
deriving DecidableEq

/-- Unified persisted package produced by `create_all_indexes` (builders.py):
`__META__` fields plus the three maps. Dicts are embedded as functions into
`Option`, `none` meaning the key is absent. -/
structure Package where
  metaN : Nat
  docLengths : Nat → Option Nat
  avgdl : ℚ
  unified : TokGram → Option (List Nat)
  wildcard : List Char → Option (List String)
  prox : TokGram → Option (Nat → Option (List Nat))

/-! ## index/access.py -/

/-- Source `get_posting_list` (access.py): postings for a key, `[]` on miss. -/
def get_posting_list (pkg : Package) (term : TokGram) : List Nat :=
  match pkg.unified term with
  | none => []
  | some posting => posting

/-- Source `find_wildcard_matches` (access.py): terms containing a character
n-gram, `[]` on miss. -/
def find_wildcard_matches (pkg : Package) (pattern : List Char) : List String :=
  match pkg.wildcard pattern with
  | none => []
  | some terms => terms

/-- Source `get_term_positions` (access.py): positions of a key in a document,
`[]` when either the key or the document id is absent. -/
def get_term_positions (pkg : Package) (term : TokGram) (doc_id : Nat) : List Nat :=
  match pkg.prox term with
  | none => []
  | some docmap =>
    match docmap doc_id with
    | none => []
    | some positions => positions

/-! ## index/builders.py -/

/-- Source `_token_ngrams` restricted to one value of `n`: the `(key, i)` pairs
for starting offsets `i` with `i + n <= len(tokens)`; a 1-gram key is the bare
token, an n-gram key (n >= 2) is the token tuple. -/
def tokenNgramsN (tokens : List String) (n : Nat) : List (TokGram × Nat) :=
  if tokens.length < n then []
  else
    (List.range (tokens.length - n + 1)).map (fun i =>
      (if n = 1 then TokGram.str (tokens.getD i "")
       else TokGram.tup ((tokens.drop i).take n), i))

/-- Source `_token_ngrams` with `n_max = 3`: the loop `for n in range(1, 4)`
with its early `break` when `L < n` is the concatenation of the three per-`n`
lists (the `break` only skips values of `n` whose list is empty anyway). -/
def tokenNgrams (tokens : List String) : List (TokGram × Nat) :=
  tokenNgramsN tokens 1 ++ tokenNgramsN tokens 2 ++ tokenNgramsN tokens 3

/-- Boundary-augmented form `$term$` used by the wildcard index. -/
def augmented (t : List Char) : List Char :=
  '$' :: (t ++ ['$'])

/-- All contiguous substrings of a given length of a character list, left to
right (Python `s[i:i+n] for i in range(len(s) - n + 1)`). -/
def substringsOfLen (s : List Char) (n : Nat) : List (List Char) :=
  (List.range (s.length + 1 - n)).map (fun i => (s.drop i).take n)

/-- Source `_char_ngrams` (builders.py): every character n-gram of length 1..3
of `$term$`, skipping the bare `"$"` unigram. -/
def charNgrams (t : List Char) : List (List Char) :=
  (substringsOfLen (augmented t) 1 ++ substringsOfLen (augmented t) 2 ++
      substringsOfLen (augmented t) 3).filter (fun cg => cg ≠ ['$'])

/-- Python `set.add`: insert into a duplicate-free member list if absent. -/
def setAdd {α : Type} [DecidableEq α] (x : α) (l : List α) : List α :=
  if x ∈ l then l else x :: l

/-- Helper for `dedupKeepFirst`: keep elements not yet in `seen`. -/
def dedupAux {α : Type} [DecidableEq α] (seen : List α) : List α → List α
  | [] => []
  | a :: l => if a ∈ seen then dedupAux seen l else a :: dedupAux (a :: seen) l

/-- Iteration order of Python `set(tokens)`: each distinct element once.
Order of iteration is irrelevant because all downstream operations are
set inserts. -/
def dedupKeepFirst {α : Type} [DecidableEq α] (l : List α) : List α :=
  dedupAux [] l

/-- In-memory builder state of `create_all_indexes` before post-processing:
`unified_sets`, `proximity`, `wildcard_sets`, `doc_lengths`, `total_len`.
A dict-of-sets is a function to a member list (`[]` = key absent, which is
equivalent here because no bucket is ever created empty); the proximity
dict-of-dict-of-lists is a curried function (`[]` = pair absent, likewise). -/
structure BuildState where
  unifiedSets : TokGram → List Nat
  proxLists : TokGram → Nat → List Nat
  wildcardSets : List Char → List String
  docLengths : Nat → Option Nat
  totalLen : Nat

def initState : BuildState :=
  { unifiedSets := fun _ => []
    proxLists := fun _ _ => []
    wildcardSets := fun _ => []
    docLengths := fun _ => none
    totalLen := 0 }

/-- One iteration of the `for key, pos in _token_ngrams(tokens)` loop body:
add `did` to the key's postings set and append `pos` to the key's per-document
position list. -/
def addNgram (did : Nat) (st : BuildState) (kp : TokGram × Nat) : BuildState :=
  { st with
    unifiedSets := fun k =>
      if k = kp.1 then setAdd did (st.unifiedSets kp.1) else st.unifiedSets k
    proxLists := fun k d =>
      if k = kp.1 ∧ d = did then st.proxLists kp.1 did ++ [kp.2]
      else st.proxLists k d }

/-- One iteration of the `for term in set(tokens)` loop body: add the term to
the set of every character n-gram of `$term$`. -/
def addWildcardTerm (st : BuildState) (term : String) : BuildState :=
  (charNgrams term.toList).foldl
    (fun st cg =>
      { st with
        wildcardSets := fun g =>
          if g = cg then setAdd term (st.wildcardSets cg) else st.wildcardSets g })
    st

/-- Body of the single pass over documents in `create_all_indexes`:
record the document length and total, then walk the token n-grams, then the
wildcard character n-grams of the document's distinct tokens. -/
def processDoc (st : BuildState) (p : Nat × List String) : BuildState :=
  let did := p.1
  let tokens := p.2
  let st1 :=
    { st with
      docLengths := fun d => if d = did then some tokens.length else st.docLengths d
      totalLen := st.totalLen + tokens.length }
  let st2 := (tokenNgrams tokens).foldl (addNgram did) st1
  (dedupKeepFirst tokens).foldl addWildcardTerm st2

/-- The builder state after the single pass over the whole corpus. The corpus
is the zipped `(doc_id, tokens)` pair list (`zip(tokenized_docs, doc_ids)` in
the source, after the length check). -/
def buildState (corpus : List (Nat × List String)) : BuildState :=
  corpus.foldl processDoc initState

/-- Source `create_all_indexes` (builders.py): single pass, then deterministic
post-processing converting every set to a sorted list (ascending doc ids,
lexicographic terms) and sorting each per-document position list in place.
A key is present in the final `unified`/`proximity` dicts exactly when its
bucket received at least one insert (both are fed by the same loop), and a
document id is present in an inner proximity dict exactly when at least one
position was appended for it. -/
def create_all_indexes (corpus : List (Nat × List String)) : Package :=
  let st := buildState corpus
  let N := corpus.length
  { metaN := N
    docLengths := st.docLengths
    avgdl := if 0 < N then (st.totalLen : ℚ) / (N : ℚ) else 0
    unified := fun k =>
      if st.unifiedSets k = [] then none
      else some (List.insertionSort (· ≤ ·) (st.unifiedSets k))
    wildcard := fun g =>
      if st.wildcardSets g = [] then none
      else some (List.insertionSort strLe (st.wildcardSets g))
    prox := fun k =>
      if st.unifiedSets k = [] then none
      else some (fun d =>
        if st.proxLists k d = [] then none
        else some (List.insertionSort (· ≤ ·) (st.proxLists k d))) }

/-! ## query_processing/detection.py -/

/-- Regex `\bAND\b`-style word match at the head of `l`: the literal word
followed by a non-word character or end of string (the boundary before the
word is checked by the caller). -/
def wordAt (w : List Char) (l : List Char) : Bool :=
  w.isPrefixOf l &&
    (match l.drop w.length with
     | [] => true
     | c :: _ => !isWordChar c)

/-- Regex `NEAR/(\d+)` match at the head of `l` (detection's `_RE_NEAR` has no
word boundaries): the literal `NEAR/` followed by at least one digit. -/
def nearAt (l : List Char) : Bool :=
  ("NEAR/".toList.isPrefixOf l) &&
    (match l.drop 5 with
     | [] => false
     | c :: _ => isDigitChar c)

/-- Existence of a `NEAR/(\d+)` match anywhere (`_RE_NEAR.search`). -/
def hasNearPattern (l : List Char) : Bool :=
  l.tails.any nearAt

/-- Existence of a word-boundary `AND`/`OR`/`NOT` anywhere
(`_RE_BOOL_OP.search`); the flag carries whether the previous character was a
word character. -/
def hasBoolOpAux : Bool → List Char → Bool
  | _, [] => false
  | prevW, c :: rest =>
    (!prevW &&
        (wordAt "AND".toList (c :: rest) || wordAt "OR".toList (c :: rest) ||
          wordAt "NOT".toList (c :: rest))) ||
      hasBoolOpAux (isWordChar c) rest

def hasBoolOp (l : List Char) : Bool :=
  hasBoolOpAux false l

/-- Source `_balanced_parens` (detection.py): depth scan that also rejects a
prefix closing more than it opened. -/
def balancedParensAux : Int → List Char → Bool
  | c, [] => c = 0
  | c, '(' :: l => balancedParensAux (c + 1) l
  | c, ')' :: l => if c - 1 < 0 then false else balancedParensAux (c - 1) l
  | c, _ :: l => balancedParensAux c l

def balancedParens (l : List Char) : Bool :=
  balancedParensAux 0 l

/-- Source `_has_unmatched_quotes`: odd number of `"` characters. -/
def hasUnmatchedQuotes (l : List Char) : Bool :=
  ¬ (l.count '"') % 2 = 0

/-- Contents of the matches of regex `"[^"]*"` from left to right: the scanner
pairs each opening quote with the next quote; an unterminated final quote
yields no match. -/
def quotedSegmentsAux : List Char → Option (List Char) → List (List Char)
  | [], _ => []
  | c :: l, none =>
    if c = '"' then quotedSegmentsAux l (some []) else quotedSegmentsAux l none
  | c :: l, some acc =>
    if c = '"' then acc.reverse :: quotedSegmentsAux l none
    else quotedSegmentsAux l (some (c :: acc))

def quotedSegments (l : List Char) : List (List Char) :=
  quotedSegmentsAux l none

/-- Source `_bad_phrase_lengths`: some quoted phrase is empty after stripping
or has more than 3 whitespace-separated tokens. -/
def badPhraseLengths (l : List Char) : Bool :=
  (quotedSegments l).any (fun seg =>
    let inside := pyStrip seg
    inside = [] || (pySplit inside).length > 3)

/-- Source `_RE_UPPER_OPLIKE.fullmatch`: a token made entirely of uppercase
letters, length at least 2. -/
def isUpperOpLike (t : List Char) : Bool :=
  t.length ≥ 2 && t.all (fun c => 'A' ≤ c && c ≤ 'Z')

/-- Source `_has_mixed_types` (detection.py). -/
def hasMixedTypes (q : List Char) : Bool :=
  let hasStar := q.any (· = '*')
  let hasNear := hasNearPattern q || containsSub "NEAR".toList q
  let hasBoolOps := hasBoolOp q
  let hasQuotes := q.any (· = '"')
  (hasStar && (hasNear || hasBoolOps || hasQuotes)) || (hasNear && hasBoolOps)

/-- Conversion of a digit run to the number `int` parses (`int(m.group(1))`). -/
def digitsToNat (ds : List Char) : Nat :=
  ds.foldl (fun n c => 10 * n + (c.toNat - '0'.toNat)) 0

/-- Non-overlapping matches of `NEAR/(\d+)` from left to right
(`finditer`), with greedy digit runs: each entry is
`(start, end-exclusive, k)`. The fuel argument (instantiated with the string
length) only serves structural termination; every step consumes at least one
character, so it never runs out. -/
def nearScan : Nat → List Char → Nat → List (Nat × Nat × Nat)
  | _, [], _ => []
  | 0, _ :: _, _ => []
  | fuel + 1, l@(_ :: rest), i =>
    if nearAt l then
      let ds := (l.drop 5).takeWhile isDigitChar
      (i, i + 5 + ds.length, digitsToNat ds) ::
        nearScan fuel (l.drop (5 + ds.length)) (i + 5 + ds.length)
    else nearScan fuel rest (i + 1)

def nearMatches (q : List Char) : List (Nat × Nat × Nat) :=
  nearScan q.length q 0

/-- Source `_invalid_near` (detection.py). The `k < 0` branch of the source
cannot fire (the regex group is a digit run); it is omitted on `Nat`. -/
def invalidNear (q : List Char) : Bool :=
  if containsSub "NEAR".toList q && !hasNearPattern q then true
  else
    match nearMatches q with
    | [] => false
    | [(s, e, _)] =>
      pyStrip (q.take s) = [] || pyStrip (q.drop e) = []
    | _ :: _ :: _ => true

/-- Source `_invalid_wildcard` (detection.py). -/
def invalidWildcard (q : List Char) : Bool :=
  if ¬ q.any (· = '*') then false
  else if q.any (· = '"') then true
  else if q.any (·.isWhitespace) then true
  else !q.isEmpty && q.all (· = '*')

/-- Source `_invalid_boolean_structure` (detection.py). -/
def invalidBooleanStructure (q : List Char) : Bool :=
  if hasUnmatchedQuotes q then true
  else if !balancedParens q then true
  else if badPhraseLengths q then true
  else
    let toks := pySplit (pyStrip q)
    if toks = [] then false
    else if toks.any (fun t =>
        isUpperOpLike t && ¬ (t = "AND".toList ∨ t = "OR".toList ∨ t = "NOT".toList)) then
      true
    else if (toks.getLast? = some "AND".toList ∨ toks.getLast? = some "OR".toList ∨
        toks.getLast? = some "NOT".toList) then true
    else if (toks.head? = some "AND".toList ∨ toks.head? = some "OR".toList) then true
    else (toks.zip toks.tail).any (fun ab =>
      ((ab.1 = "AND".toList ∨ ab.1 = "OR".toList) ∧
          (ab.2 = "AND".toList ∨ ab.2 = "OR".toList)) ∨
        (ab.1 = "NOT".toList ∧
          (ab.2 = "AND".toList ∨ ab.2 = "OR".toList ∨ ab.2 = "NOT".toList)))

/-- The unknown-operator loop of `detect_query_type`: some whitespace token is
all-caps operator-like, none of `AND`/`OR`/`NOT`, and no `NEAR/` prefix (the
prefix test is vacuous for all-caps tokens but kept from the source). -/
def hasUnknownOpToken (q : List Char) : Bool :=
  (pySplit (pyStrip q)).any (fun t =>
    isUpperOpLike t ∧ ¬ (t = "AND".toList ∨ t = "OR".toList ∨ t = "NOT".toList) ∧
      ¬ "NEAR/".toList.isPrefixOf t)

/-- Source `detect_query_type` (detection.py): classification with
`ValueError` (`MalformedQuery`) embedded as `Except.error` carrying the
reason string. -/
def detect_query_type (query : String) : Except String String :=
  let q := query.toList
  if hasUnmatchedQuotes q then .error "Unmatched quotes"
  else if !balancedParens q then .error "Unbalanced parentheses"
  else if badPhraseLengths q then .error "Phrases exceed max length 3 or empty phrase"
  else if hasUnknownOpToken q then
    .error "Unknown operator token"
  else if hasMixedTypes q then
    .error "Mixed query types are not supported"
  else if containsSub "NEAR".toList q || hasNearPattern q then
    if invalidNear q then .error "Malformed NEAR k" else .ok "proximity"
  else if q.any (· = '*') then
    if invalidWildcard q then .error "Malformed wildcard query" else .ok "wildcard"
  else if hasBoolOp q || q.any (· = '"') then
    if invalidBooleanStructure q then .error "Malformed boolean query" else .ok "boolean"
  else .ok "natural_language"

/-! ## query_processing/boolean.py -/

/-- Tokenizer `RE_TOKEN.findall` of boolean.py for the regex
`"[^"]*"|\(|\)|\bAND\b|\bOR\b|\bNOT\b|[^()\s]+`: a left-to-right scan taking
at each position the first alternative that matches (a quoted phrase only when
a closing quote exists; operator words only at a non-word left boundary and
with a non-word right boundary; otherwise a maximal run of
non-space/non-paren characters). Positions where nothing matches (whitespace)
are skipped. The boolean flag records whether the previous character is a word
character; the fuel (instantiated with the string length) only serves
structural termination and never runs out because every step consumes at
least one character. -/
def findallAux : Nat → Bool → List Char → List (List Char)
  | _, _, [] => []
  | 0, _, _ :: _ => []
  | fuel + 1, prevW, c :: rest =>
    if c = '"' ∧ '"' ∈ rest then
      let inside := rest.takeWhile (· ≠ '"')
      let after := (rest.dropWhile (· ≠ '"')).drop 1
      ('"' :: inside ++ ['"']) :: findallAux fuel false after
    else if c = '(' then ['('] :: findallAux fuel false rest
    else if c = ')' then [')'] :: findallAux fuel false rest
    else if ¬ prevW ∧ wordAt "AND".toList (c :: rest) then
      "AND".toList :: findallAux fuel true ((c :: rest).drop 3)
    else if ¬ prevW ∧ wordAt "OR".toList (c :: rest) then
      "OR".toList :: findallAux fuel true ((c :: rest).drop 2)
    else if ¬ prevW ∧ wordAt "NOT".toList (c :: rest) then
      "NOT".toList :: findallAux fuel true ((c :: rest).drop 3)
    else if c.isWhitespace then findallAux fuel false rest
    else
      let tok := (c :: rest).takeWhile (fun d => !d.isWhitespace && d ≠ '(' && d ≠ ')')
      tok :: findallAux fuel
        (match tok.reverse with
         | [] => prevW
         | d :: _ => isWordChar d)
        ((c :: rest).drop tok.length)

def findallTokens (query : String) : List (List Char) :=
  findallAux query.toList.length false query.toList

/-- Source `_as_key` of boolean.py: quoted phrase to tuple key (or single
string, or the guaranteed-empty `""` key), bare token to string key. -/
def asKeyBool (token : List Char) : TokGram :=
  if token.head? = some '"' ∧ token.getLast? = some '"' then
    let inside := pyStrip ((token.drop 1).dropLast)
    if inside = [] then TokGram.str ""
    else
      match pySplit inside with
      | [t] => TokGram.str (String.mk t)
      | toks => TokGram.tup (toks.map String.mk)
  else TokGram.str (String.mk token)

/-- Source `_postings_for_key`: the empty key has no matches. -/
def postingsForKey (pkg : Package) (k : TokGram) : List Nat :=
  if k = TokGram.str "" then [] else get_posting_list pkg k

/-- Python set operations on membership lists. -/
def setInter (a b : List Nat) : List Nat :=
  a.filter (fun x => decide (x ∈ b))

def setUnion (a b : List Nat) : List Nat :=
  a ++ b.filter (fun x => decide (x ∉ a))

def setDiff (a b : List Nat) : List Nat :=
  a.filter (fun x => decide (x ∉ b))

/-- Operator or parenthesis tokens skipped by `_collect_universe`. -/
def isOpParen (t : List Char) : Bool :=
  t = "AND".toList || t = "OR".toList || t = "NOT".toList || t = ['('] || t = [')']

/-- Source `_collect_universe` (boolean.py): union of the postings of every
operand token of the query. -/
def collect_universe (pkg : Package) (tokens : List (List Char)) : List Nat :=
  tokens.foldl
    (fun U t => if isOpParen t then U else setUnion U (postingsForKey pkg (asKeyBool t)))
    []

/-- Python `prec` dict of `_to_rpn`; `0` stands for "not an operator" and is
never compared by the source (which guards with `ops[-1] in prec`). -/
def precOp (t : String) : Nat :=
  if t = "NOT" then 3 else if t = "AND" then 2 else if t = "OR" then 1 else 0

/-- The `while ops and ops[-1] != "(":` loop of the `)` case of `_to_rpn`:
pop to the output until an opening parenthesis, failing if none is found. -/
def popUntilParen : List String → Option (List String × List String)
  | [] => none
  | op :: ops =>
    if op = "(" then some ([], ops)
    else
      match popUntilParen ops with
      | none => none
      | some (popped, rest) => some (op :: popped, rest)

/-- The precedence-popping loop of the operator case of `_to_rpn`:
right-associative `NOT` pops strictly higher precedence, left-associative
`AND`/`OR` pop greater-or-equal precedence; only operator entries (`in prec`)
are popped. -/
def popPrec (t : String) : List String → List String × List String
  | [] => ([], [])
  | op :: ops =>
    let isOp := op = "NOT" ∨ op = "AND" ∨ op = "OR"
    let cond := if t = "NOT" then precOp op > precOp t else precOp op ≥ precOp t
    if isOp ∧ cond then
      let (popped, rest) := popPrec t ops
      (op :: popped, rest)
    else ([], op :: ops)

/-- Final drain of the operator stack in `_to_rpn`: a remaining parenthesis is
an unbalanced-parentheses error. -/
def drainOps : List String → Except String (List TokGram)
  | [] => .ok []
  | op :: ops =>
    if op = "(" ∨ op = ")" then .error "Unbalanced parentheses"
    else
      match drainOps ops with
      | .error e => .error e
      | .ok rest => .ok (TokGram.str op :: rest)

/-- Main token loop of `_to_rpn` (shunting-yard), carrying the output list and
the operator stack. -/
def toRpnAux : List (List Char) → List TokGram → List String → Except String (List TokGram)
  | [], output, ops =>
    match drainOps ops with
    | .error e => .error e
    | .ok rest => .ok (output ++ rest)
  | t :: ts, output, ops =>
    if t = ['('] then toRpnAux ts output ("(" :: ops)
    else if t = [')'] then
      match popUntilParen ops with
      | none => .error "Unbalanced parentheses"
      | some (popped, rest) => toRpnAux ts (output ++ popped.map TokGram.str) rest
    else if t = "AND".toList then
      let (popped, rest) := popPrec "AND" ops
      toRpnAux ts (output ++ popped.map TokGram.str) ("AND" :: rest)
    else if t = "OR".toList then
      let (popped, rest) := popPrec "OR" ops
      toRpnAux ts (output ++ popped.map TokGram.str) ("OR" :: rest)
    else if t = "NOT".toList then
      let (popped, rest) := popPrec "NOT" ops
      toRpnAux ts (output ++ popped.map TokGram.str) ("NOT" :: rest)
    else toRpnAux ts (output ++ [asKeyBool t]) ops

/-- Source `_to_rpn` (boolean.py). -/
def toRpn (tokens : List (List Char)) : Except String (List TokGram) :=
  toRpnAux tokens [] []

/-- Source `_eval_rpn` (boolean.py): stack evaluation over sets. Operators are
recognized by comparing the reverse-polish entry with the strings
`"NOT"`/`"AND"`/`"OR"` — exactly Python's `token == "NOT"` etc., so a
string *operand* equal to an operator keyword (possible via a quoted phrase)
takes the operator branch, as in the source. -/
def evalRpn (pkg : Package) (univ : List Nat) :
    List TokGram → List (List Nat) → Except String (List Nat)
  | [], stack =>
    match stack with
    | [s] => .ok s
    | _ => .error "Malformed boolean expression"
  | tok :: rest, stack =>
    if tok = TokGram.str "NOT" then
      match stack with
      | [] => .error "NOT without operand"
      | a :: s => evalRpn pkg univ rest (setDiff univ a :: s)
    else if tok = TokGram.str "AND" then
      match stack with
      | b :: a :: s => evalRpn pkg univ rest (setInter a b :: s)
      | _ => .error "AND needs two operands"
    else if tok = TokGram.str "OR" then
      match stack with
      | b :: a :: s => evalRpn pkg univ rest (setUnion a b :: s)
      | _ => .error "OR needs two operands"
    else evalRpn pkg univ rest (postingsForKey pkg tok :: stack)

/-- Source `process_boolean_query` (boolean.py): tokenize, build the query
universe, convert to reverse polish notation, evaluate (a `ValueError` of
`_to_rpn` propagates). -/
def process_boolean_query (pkg : Package) (query : String) : Except String (List Nat) :=
  let tokens := findallTokens query
  let U := collect_universe pkg tokens
  match toRpn tokens with
  | .error e => .error e
  | .ok rpn => evalRpn pkg U rpn []

/-! ## query_processing/wildcard.py -/

/-- Python `pat.split('*', 1)[0]`: the leading literal stem. -/
def splitFirstStar (s : List Char) : List Char :=
  s.takeWhile (· ≠ '*')

/-- Python `pat.rsplit('*', 1)[-1]`: the trailing literal stem. -/
def rsplitLastStar (s : List Char) : List Char :=
  (s.reverse.takeWhile (· ≠ '*')).reverse

/-- Source `_pattern_to_ngrams` (wildcard.py): boundary grams from the leading
stem (when the pattern does not start with `*`), boundary grams from the
trailing stem (when it does not end with `*`), then all substrings of the
star-free core of length 3, 2, 1; deduplicated keeping first occurrences,
dropping empty grams and the bare `"$"`. -/
def patternToNgrams (pat : List Char) : List (List Char) :=
  let pre :=
    if pat.head? = some '*' then []
    else
      let stem := splitFirstStar pat
      (if 1 ≤ stem.length then ['$' :: stem.take 1] else []) ++
        (if 2 ≤ stem.length then ['$' :: stem.take 2] else [])
  let suf :=
    if pat.getLast? = some '*' then []
    else
      let stem := rsplitLastStar pat
      (if 1 ≤ stem.length then [stem.drop (stem.length - 1) ++ ['$']] else []) ++
        (if 2 ≤ stem.length then [stem.drop (stem.length - 2) ++ ['$']] else [])
  let core := pat.filter (· ≠ '*')
  let inner := substringsOfLen core 3 ++ substringsOfLen core 2 ++ substringsOfLen core 1
  dedupKeepFirst ((pre ++ suf ++ inner).filter (fun g => ¬ g = [] ∧ ¬ g = ['$']))

/-- Anchored glob match of the compiled regex
`"^" + re.escape(pat).replace("\*", ".*") + "$"`: `*` matches any substring
(including the empty one), every other character matches itself, and the whole
term must be consumed. -/
def globMatch : List Char → List Char → Bool
  | [], t => t.isEmpty
  | c :: ps, t =>
    if c = '*' then t.tails.any (fun t2 => globMatch ps t2)
    else
      match t with
      | [] => false
      | d :: ts => c = d && globMatch ps ts

/-- Python set intersection over term lists, at membership level. -/
def strInter (a b : List String) : List String :=
  a.filter (fun t => decide (t ∈ b))

/-- Source `_expand_terms` (wildcard.py): intersect the wildcard-match term
sets of all derived grams (the source's early `break` on an empty intermediate
set is extensionally a no-op because intersections with the empty set stay
empty), then keep the terms matching the full pattern as a glob, sorted. -/
def expandTerms (pkg : Package) (pat : List Char) : List String :=
  match patternToNgrams pat with
  | [] => []
  | g0 :: rest =>
    let candidates :=
      rest.foldl (fun acc g => strInter acc (find_wildcard_matches pkg g))
        (find_wildcard_matches pkg g0)
    List.insertionSort strLe (candidates.filter (fun t => globMatch pat t.toList))

/-- Source `process_wildcard_query` (wildcard.py): empty result for a pattern
with no `*` or an all-whitespace pattern, else the union of the postings of
every expanded term. -/
def process_wildcard_query (pkg : Package) (pattern : String) : List Nat :=
  if ¬ pattern.toList.any (· = '*') ∨ pyStrip pattern.toList = [] then []
  else
    (expandTerms pkg pattern.toList).foldl
      (fun results t => setUnion results (get_posting_list pkg (TokGram.str t))) []

/-! ## query_processing/proximity.py -/

/-- Match of proximity's `_NEAR_RE = \bNEAR/(\d+)\b` at the head of `l` (the
left word boundary is checked by the caller): returns `(k, match length)`.
The trailing `\b` forces the digit run to be maximal and followed by a
non-word character or the end (any shorter backtracked run would end before a
digit, which is a word character, so no other match is possible here). -/
def nearBoundaryAt (l : List Char) : Option (Nat × Nat) :=
  if "NEAR/".toList.isPrefixOf l then
    let ds := (l.drop 5).takeWhile isDigitChar
    if ds = [] then none
    else
      match l.drop (5 + ds.length) with
      | [] => some (digitsToNat ds, 5 + ds.length)
      | c :: _ => if isWordChar c then none else some (digitsToNat ds, 5 + ds.length)
  else none

/-- Leftmost `\bNEAR/(\d+)\b` match (`_NEAR_RE.search`): `(start, end, k)`.
The flag records whether the previous character is a word character. -/
def searchNearAux : Bool → List Char → Nat → Option (Nat × Nat × Nat)
  | _, [], _ => none
  | prevW, c :: rest, i =>
    match (if prevW then none else nearBoundaryAt (c :: rest)) with
    | some (k, len) => some (i, i + len, k)
    | none => searchNearAux (isWordChar c) rest (i + 1)

/-- Source `_parse_near` (proximity.py). The `k < 0` branch of the source
cannot fire (the regex group is a digit run) and is omitted on `Nat`. -/
def parse_near (query : List Char) : Except String (List Char × Nat × List Char) :=
  match searchNearAux false query 0 with
  | none => .error "Malformed NEAR k missing or non-strict"
  | some (s, e, k) =>
    let left := pyStrip (query.take s)
    let right := pyStrip (query.drop e)
    if left = [] ∨ right = [] then .error "Malformed NEAR k missing operand"
    else .ok (left, k, right)

/-- Source `_as_key` of proximity.py: unlike boolean's `_as_key`, an empty
quoted phrase becomes the empty tuple key. -/
def asKeyProx (operand : List Char) : TokGram :=
  if operand.head? = some '"' ∧ operand.getLast? = some '"' then
    match pySplit (pyStrip ((operand.drop 1).dropLast)) with
    | [t] => TokGram.str (String.mk t)
    | toks => TokGram.tup (toks.map String.mk)
  else TokGram.str (String.mk operand)

/-- Source `_span_positions` (proximity.py): spans `(s, s + m - 1)` for a
phrase key of `m` tokens, `(p, p)` for a unigram key. (For the empty tuple
key the position list is always empty, so its `m - 1` truncation on `Nat` is
never exercised.) -/
def spanPositions (pkg : Package) (key : TokGram) (did : Nat) : List (Nat × Nat) :=
  match key with
  | TokGram.tup l => (get_term_positions pkg key did).map (fun s => (s, s + l.length - 1))
  | TokGram.str _ => (get_term_positions pkg key did).map (fun p => (p, p))

/-- Source `_edge_distance` (proximity.py): 0 for overlapping spans, else the
minimal edge gap in either order (computed over `Int` as Python does). -/
def edgeDistance (a b : Nat × Nat) : Nat :=
  if ¬ (a.2 < b.1 ∨ b.2 < a.1) then 0
  else min ((b.1 : Int) - (a.2 : Int)).natAbs ((a.1 : Int) - (b.2 : Int)).natAbs

/-- Source `process_proximity_query` (proximity.py): candidates are documents
containing both operands; a candidate is a hit when some pair of
non-identical spans is within `k`. The source's `ok` flag with break is the
`any` below, and its `if not candidates`/`if not left_spans` short-circuits
are extensionally the same filter. -/
def process_proximity_query (pkg : Package) (query : String) :
    Except String (List Nat) :=
  match parse_near query.toList with
  | .error e => .error e
  | .ok (lstr, k, rstr) =>
    let leftKey := asKeyProx lstr
    let rightKey := asKeyProx rstr
    let left_docs := get_posting_list pkg leftKey
    let right_docs := get_posting_list pkg rightKey
    let candidates := setInter left_docs right_docs
    .ok (candidates.filter (fun did =>
      let ls := spanPositions pkg leftKey did
      let rs := spanPositions pkg rightKey did
      ls.any (fun a => rs.any (fun b => decide (¬ a = b) && decide (edgeDistance a b ≤ k)))))

/-! ## query_processing/query_process.py -/

/-- Source `convert_natural_language` (query_process.py). The body of the
source function is the single statement `pass`, so the call returns Python
`None` for every input — embedded as the constant `none` — even though its
docstring promises an `" OR "`-joined boolean query string. -/
def convert_natural_language (nl_query : String) : Option String :=
  none

/-- What the specification (and the function's own docstring and unit test)
say `convert_natural_language` should return. Modelled from the spec: split
the query on whitespace and join the tokens with `" OR "`; empty or
all-whitespace input yields the empty string. -/
def convertNaturalLanguageSpec (nl_query : String) : String :=
  String.intercalate " OR " (pySplitStr nl_query)

/-- Source `process_query` (query_process.py): detect, route to the matching
evaluator; for natural language, a falsy converted query (Python `None` or
the empty string) short-circuits to the empty set. -/
def process_query (pkg : Package) (query : String) : Except String (List Nat) := do
  let qtype ← detect_query_type query
  if qtype = "boolean" then process_boolean_query pkg query
  else if qtype = "wildcard" then .ok (process_wildcard_query pkg query)
  else if qtype = "proximity" then process_proximity_query pkg query
  else
    match convert_natural_language query with
    | none => .ok []
    | some bq => if bq = "" then .ok [] else process_boolean_query pkg bq

/-! ## ranking/rankers.py

Scores are Python floats computed with `math.log`; they are embedded over `ℝ`
with `Real.log`. -/

/-- Source `_df` (rankers.py): document frequency from unified postings. -/
def dfOf (pkg : Package) (t : String) : Nat :=
  (get_posting_list pkg (TokGram.str t)).length

/-- Source `_tf` (rankers.py): term frequency via unigram positions length. -/
def tfOf (pkg : Package) (t : String) (d : Nat) : Nat :=
  (get_term_positions pkg (TokGram.str t) d).length

/-- Non-negative BM25 idf of `_bm25_scores`:
`ln((N - df + 0.5) / (df + 0.5) + 1)`. -/
noncomputable def idfBm25 (N df : Nat) : ℝ :=
  Real.log (((N : ℝ) - (df : ℝ) + 0.5) / ((df : ℝ) + 0.5) + 1)

/-- Source `_bm25_scores` (rankers.py), as the score of one document: the
`idf` dict ranges over the distinct query terms with positive document
frequency (Python dict keys are insertion-ordered and unique, hence
`dedupKeepFirst`), terms with zero term frequency contribute nothing, and
`k1 = 1.2`, `b = 0.75`. -/
noncomputable def bm25Score (pkg : Package) (query_toks : List String) (d : Nat) : ℝ :=
  let N : Nat := max 1 pkg.metaN
  let avgdl : ℝ := (pkg.avgdl : ℝ)
  let dl : Nat := max 1 ((pkg.docLengths d).getD 0)
  let norm : ℝ := if 0 < avgdl then (1 - 0.75) + 0.75 * ((dl : ℝ) / avgdl) else 1
  ((dedupKeepFirst query_toks).map (fun t =>
    let df := dfOf pkg t
    if df = 0 then 0
    else
      let tf := tfOf pkg t d
      if tf = 0 then 0
      else idfBm25 N df * (((tf : ℝ) * (1.2 + 1)) / ((tf : ℝ) + 1.2 * norm)))).sum

/-- Source `_tfidf_scores` (rankers.py), as the score of one document:
`idf = ln(N / df + 1e-12)` over distinct query terms with positive document
frequency, contribution `(1 + ln tf) * idf` for positive `tf`. -/
noncomputable def tfidfScore (pkg : Package) (query_toks : List String) (d : Nat) : ℝ :=
  let N : Nat := max 1 pkg.metaN
  ((dedupKeepFirst query_toks).map (fun t =>
    let df := dfOf pkg t
    if df = 0 then 0
    else
      let tf := tfOf pkg t d
      if tf = 0 then 0
      else (1 + Real.log (tf : ℝ)) * Real.log ((N : ℝ) / (df : ℝ) + 1e-12))).sum

/-- Python `str.lower()` on ASCII input: shift uppercase letters by 32. -/
def pyLower (s : String) : String :=
  String.mk (s.toList.map (fun c =>
    if 'A' ≤ c ∧ c ≤ 'Z' then Char.ofNat (c.toNat + 32) else c))

/-- The comparison key of `sorted(doc_ids, key=lambda d: (-score[d], d))`:
ascending lexicographic order on `(-score, doc id)`, i.e. descending score
with ties broken by ascending document id. -/
def rankKeyLe (score : Nat → ℝ) (d d' : Nat) : Prop :=
  score d' < score d ∨ (score d = score d' ∧ d ≤ d')

/-- Source `rank_documents` (rankers.py): pick the scoring method (`default`
and `bm25` are BM25, `tfidf` is TF-IDF, anything else falls back to BM25,
never raising), sort candidates by the deterministic key, and align scores.
The unused `candidate_docs` argument of the source is kept for interface
fidelity. Python's `sorted` is embedded as a sort by the same key; which
stable sort is used is irrelevant because the key order is antisymmetric on
document ids. -/
noncomputable def rank_documents (pkg : Package) (query_toks : List String)
    (candidate_docs : List (List String)) (doc_ids : List Nat) (method : String) :
    List Nat × List ℝ :=
  if doc_ids = [] then ([], [])
  else
    let meth := pyLower (if method = "" then "default" else method)
    let score : Nat → ℝ :=
      if meth = "default" ∨ meth = "bm25" then bm25Score pkg query_toks
      else if meth = "tfidf" then tfidfScore pkg query_toks
      else bm25Score pkg query_toks
    letI : DecidableRel (rankKeyLe score) := fun _ _ => Classical.propDecidable _
    let ranked := List.insertionSort (rankKeyLe score) doc_ids
    (ranked, ranked.map score)

/-! ## Example corpora from the specification -/

/-- Boolean-example corpus of the specification (section 8):
`{10:[climate,change,effects], 20:[machine,learning,algorithms],
30:[climate,science,research], 40:[renewable,energy,transition]}`. -/
def corpusBool : List (Nat × List String) :=
  [(10, ["climate", "change", "effects"]),
   (20, ["machine", "learning", "algorithms"]),
   (30, ["climate", "science", "research"]),
   (40, ["renewable", "energy", "transition"])]

def pkgBool : Package :=
  create_all_indexes corpusBool

/-- A package with no content, used to witness out-of-vocabulary lookups. -/
def pkgEmpty : Package :=
  { metaN := 0
    docLengths := fun _ => none
    avgdl := 0
    unified := fun _ => none
    wildcard := fun _ => none
    prox := fun _ => none }

/-- Operator keywords that can sit on the shunting-yard stack (besides a
pending parenthesis). -/
def IsOpStr (o : String) : Prop :=
  o = "NOT" ∨ o = "AND" ∨ o = "OR"

/-- Entries a reverse-polish output can hold: an operator keyword pushed from
the stack, or the key of an operand token of the query. -/
def OutOk (T : List (List Char)) (x : TokGram) : Prop :=
  (∃ o, IsOpStr o ∧ x = TokGram.str o) ∨
    ∃ t, t ∈ T ∧ isOpParen t = false ∧ x = asKeyBool t

/-- Two documents that both contain the query term `"t"` exactly once, with
document lengths 1 and 101. -/
def corpusBm : List (Nat × List String) :=
  [(1, ["t"]), (2, "t" :: List.replicate 100 "u")]

def pkgBm : Package :=
  create_all_indexes corpusBm

/-- Positions at which a key occurs in a document, in the order the builder's
n-gram loop visits them. -/
def occPositions (k : TokGram) (tokens : List String) : List Nat :=
  (tokenNgrams tokens).filterMap (fun p => if p.1 = k then some p.2 else none)

/-- A key occurs in a document iff the n-gram loop yields it at least once. -/
def occursKey (k : TokGram) (tokens : List String) : Prop :=
  k ∈ (tokenNgrams tokens).map Prod.fst

/-- Strict version of the code-point order, for stating strict ascent. -/
def strLt (a b : String) : Prop :=
  lexLe a.toList b.toList = true ∧ ¬ a = b

/-! ## Theorems -/

set_option maxRecDepth 1000000

/-- C7: for every loaded index package, looking up a key absent from the
unified postings (`get_posting_list`), a character n-gram absent from the
wildcard map (`find_wildcard_matches`), or a `(key, doc_id)` pair absent from
the proximity map (`get_term_positions`, covering both an absent key and an
absent document entry) returns the empty list; the access functions are total,
so no error is ever raised. -/
theorem oov_lookups_empty (pkg : Package) (k : TokGram) (g : List Char)
    (k2 : TokGram) (d : Nat)
    (h1 : pkg.unified k = none) (h2 : pkg.wildcard g = none)
    (h3 : (pkg.prox k2).bind (fun m => m d) = none) :
    get_posting_list pkg k = [] ∧ find_wildcard_matches pkg g = [] ∧
      get_term_positions pkg k2 d = [] := by
  refine ⟨?_, ?_, ?_⟩
  · unfold get_posting_list
    rw [h1]
  · unfold find_wildcard_matches
    rw [h2]
  · unfold get_term_positions
    cases hp : pkg.prox k2 with
    | none => rfl
    | some m =>
      rw [hp] at h3
      rw [Option.some_bind] at h3
      simp only [h3]

/-- Witness for C7 at a concrete package and concrete absent keys. -/
theorem oov_lookups_empty_witness :
    get_posting_list pkgEmpty (TokGram.str "climate") = [] ∧
      find_wildcard_matches pkgEmpty "$cl".toList = [] ∧
      get_term_positions pkgEmpty (TokGram.str "climate") 7 = [] :=
  oov_lookups_empty pkgEmpty (TokGram.str "climate") "$cl".toList
    (TokGram.str "climate") 7 rfl rfl rfl

/-- C1 (code bug in the source): `convert_natural_language` in
query_process.py has `pass` as its entire body and therefore returns `None`
for every input, contradicting its own docstring ("Returns: Boolean query
string with OR operators") and the repository's unit test
test_task2_natural_language.py, which asserts
`convert_natural_language('climate change') == 'climate OR change'`.
Consequently `process_query` on a natural-language query always returns the
empty set instead of the document set of the boolean OR query: on the
specification's boolean example corpus, `process_query("climate change")`
returns the empty set while the OR query built per the spec returns
`{10, 30}`. -/
theorem convert_natural_language_stub_diverges :
    convert_natural_language "climate change" = none ∧
      convertNaturalLanguageSpec "climate change" = "climate OR change" ∧
      detect_query_type "climate change" = .ok "natural_language" ∧
      process_query pkgBool "climate change" = .ok [] ∧
      process_boolean_query pkgBool (convertNaturalLanguageSpec "climate change") =
        .ok [10, 30] := by
  refine ⟨rfl, by decide, by decide, by decide, by decide⟩

/-- Membership in the embedded Python set intersection. -/
theorem mem_setInter {a b : List Nat} {d : Nat} :
    d ∈ setInter a b ↔ d ∈ a ∧ d ∈ b := by
  simp [setInter, List.mem_filter]

/-- Membership in the embedded Python set union. -/
theorem mem_setUnion {a b : List Nat} {d : Nat} :
    d ∈ setUnion a b ↔ d ∈ a ∨ d ∈ b := by
  by_cases h : d ∈ a
  · simp [setUnion, h]
  · simp [setUnion, List.mem_filter, h]

/-- Membership in the embedded Python set difference. -/
theorem mem_setDiff {a b : List Nat} {d : Nat} :
    d ∈ setDiff a b ↔ d ∈ a ∧ ¬ d ∈ b := by
  simp [setDiff, List.mem_filter]

/-- The query universe accumulated by `_collect_universe` over any initial
accumulator. -/
theorem collect_universe_aux_mem (pkg : Package) (d : Nat) :
    ∀ (toks : List (List Char)) (U0 : List Nat),
      (d ∈ toks.foldl (fun U t =>
          if isOpParen t then U else setUnion U (postingsForKey pkg (asKeyBool t))) U0 ↔
        d ∈ U0 ∨ ∃ t, t ∈ toks ∧ isOpParen t = false ∧
          d ∈ postingsForKey pkg (asKeyBool t)) := by
  intro toks
  induction toks with
  | nil => simp
  | cons t ts ih =>
    intro U0
    simp only [List.foldl_cons]
    by_cases h : isOpParen t
    · rw [if_pos h, ih]
      constructor
      · rintro (hU | ⟨u, hu, hop, hd⟩)
        · exact Or.inl hU
        · exact Or.inr ⟨u, List.mem_cons_of_mem _ hu, hop, hd⟩
      · rintro (hU | ⟨u, hu, hop, hd⟩)
        · exact Or.inl hU
        · rcases List.mem_cons.mp hu with rfl | hu'
          · rw [h] at hop; cases hop
          · exact Or.inr ⟨u, hu', hop, hd⟩
    · rw [if_neg h, ih]
      rw [Bool.not_eq_true] at h
      constructor
      · rintro (hU | ⟨u, hu, hop, hd⟩)
        · rcases mem_setUnion.mp hU with hU0 | hp
          · exact Or.inl hU0
          · exact Or.inr ⟨t, List.mem_cons_self t ts, h, hp⟩
        · exact Or.inr ⟨u, List.mem_cons_of_mem _ hu, hop, hd⟩
      · rintro (hU0 | ⟨u, hu, hop, hd⟩)
        · exact Or.inl (mem_setUnion.mpr (Or.inl hU0))
        · rcases List.mem_cons.mp hu with rfl | hu'
          · exact Or.inl (mem_setUnion.mpr (Or.inr hd))
          · exact Or.inr ⟨u, hu', hop, hd⟩

/-- Membership in the query universe of `_collect_universe`: exactly the
documents in some operand's postings. -/
theorem collect_universe_mem (pkg : Package) (toks : List (List Char)) (d : Nat) :
    d ∈ collect_universe pkg toks ↔
      ∃ t, t ∈ toks ∧ isOpParen t = false ∧ d ∈ postingsForKey pkg (asKeyBool t) := by
  unfold collect_universe
  rw [collect_universe_aux_mem pkg d toks []]
  simp

/-- C3: the boolean evaluator computes NOT, AND and OR over the query
universe U collected by `_collect_universe` — the union of the postings of
every operand token of the query (operators and parentheses skipped): a `NOT`
step replaces the popped set `a` by `U \ a`, an `AND` step pushes the
intersection, an `OR` step pushes the union, with operator precedence
`NOT > AND > OR` in the shunting-yard table; and on the specification's
example corpus, `climate AND NOT science` evaluates to `{10}` and
`( climate AND change ) OR science` evaluates to `{10, 30}`. -/
theorem boolean_evaluator_semantics :
    (∀ (pkg : Package) (toks : List (List Char)) (d : Nat),
        d ∈ collect_universe pkg toks ↔
          ∃ t, t ∈ toks ∧ isOpParen t = false ∧
            d ∈ postingsForKey pkg (asKeyBool t)) ∧
    (∀ (pkg : Package) (U : List Nat) (rest : List TokGram) (stack : List (List Nat))
        (a : List Nat),
        evalRpn pkg U (TokGram.str "NOT" :: rest) (a :: stack) =
          evalRpn pkg U rest (setDiff U a :: stack)) ∧
    (∀ (U a : List Nat) (d : Nat), d ∈ setDiff U a ↔ d ∈ U ∧ ¬ d ∈ a) ∧
    (∀ (pkg : Package) (U : List Nat) (rest : List TokGram) (stack : List (List Nat))
        (a b : List Nat),
        evalRpn pkg U (TokGram.str "AND" :: rest) (b :: a :: stack) =
          evalRpn pkg U rest (setInter a b :: stack)) ∧
    (∀ (a b : List Nat) (d : Nat), d ∈ setInter a b ↔ d ∈ a ∧ d ∈ b) ∧
    (∀ (pkg : Package) (U : List Nat) (rest : List TokGram) (stack : List (List Nat))
        (a b : List Nat),
        evalRpn pkg U (TokGram.str "OR" :: rest) (b :: a :: stack) =
          evalRpn pkg U rest (setUnion a b :: stack)) ∧
    (∀ (a b : List Nat) (d : Nat), d ∈ setUnion a b ↔ d ∈ a ∨ d ∈ b) ∧
    precOp "NOT" > precOp "AND" ∧ precOp "AND" > precOp "OR" ∧
    (∃ S, process_boolean_query pkgBool "climate AND NOT science" = .ok S ∧
      ∀ d, d ∈ S ↔ d = 10) ∧
    (∃ S, process_boolean_query pkgBool "( climate AND change ) OR science" = .ok S ∧
      ∀ d, d ∈ S ↔ (d = 10 ∨ d = 30)) := by
  refine ⟨collect_universe_mem, fun _ _ _ _ _ => rfl, fun _ _ _ => mem_setDiff,
    fun _ _ _ _ _ _ => rfl, fun _ _ _ => mem_setInter,
    fun _ _ _ _ _ _ => rfl, fun _ _ _ => mem_setUnion,
    by decide, by decide, ⟨[10], by decide, by simp⟩,
    ⟨[10, 30], by decide, by simp⟩⟩

theorem popUntilParen_spec :
    ∀ (ops popped rest : List String), popUntilParen ops = some (popped, rest) →
      (∀ o ∈ popped, o ∈ ops ∧ ¬ o = "(") ∧ (∀ o ∈ rest, o ∈ ops) := by
  intro ops
  induction ops with
  | nil => intro popped rest h; cases h
  | cons op ops ih =>
    intro popped rest h
    unfold popUntilParen at h
    by_cases hop : op = "("
    · rw [if_pos hop] at h
      cases h
      exact ⟨fun o ho => absurd ho (List.not_mem_nil o),
        fun o ho => List.mem_cons_of_mem _ ho⟩
    · rw [if_neg hop] at h
      cases hrec : popUntilParen ops with
      | none => rw [hrec] at h; cases h
      | some pr =>
        rw [hrec] at h
        cases h
        obtain ⟨h1, h2⟩ := ih pr.1 pr.2 (by rw [hrec])
        constructor
        · intro o ho
          rcases List.mem_cons.mp ho with rfl | ho'
          · exact ⟨List.mem_cons_self _ _, hop⟩
          · exact ⟨List.mem_cons_of_mem _ (h1 o ho').1, (h1 o ho').2⟩
        · exact fun o ho => List.mem_cons_of_mem _ (h2 o ho)

theorem popPrec_spec (t : String) :
    ∀ ops : List String,
      (∀ o ∈ (popPrec t ops).1, o ∈ ops ∧ IsOpStr o) ∧
        (∀ o ∈ (popPrec t ops).2, o ∈ ops) := by
  intro ops
  induction ops with
  | nil => exact ⟨fun o ho => absurd ho (List.not_mem_nil o),
      fun o ho => absurd ho (List.not_mem_nil o)⟩
  | cons op ops ih =>
    unfold popPrec
    by_cases hc : (op = "NOT" ∨ op = "AND" ∨ op = "OR") ∧
        (if t = "NOT" then precOp op > precOp t else precOp op ≥ precOp t)
    · rw [if_pos hc]
      obtain ⟨h1, h2⟩ := ih
      constructor
      · intro o ho
        simp only at ho
        rcases List.mem_cons.mp ho with rfl | ho'
        · exact ⟨List.mem_cons_self _ _, hc.1⟩
        · exact ⟨List.mem_cons_of_mem _ (h1 o ho').1, (h1 o ho').2⟩
      · intro o ho
        simp only at ho
        exact List.mem_cons_of_mem _ (h2 o ho)
    · rw [if_neg hc]
      exact ⟨fun o ho => absurd ho (List.not_mem_nil o), fun o ho => ho⟩

theorem drainOps_spec :
    ∀ (ops : List String) (l : List TokGram), drainOps ops = .ok l →
      ∀ x ∈ l, ∃ o, o ∈ ops ∧ x = TokGram.str o ∧ ¬ o = "(" ∧ ¬ o = ")" := by
  intro ops
  induction ops with
  | nil => intro l h x hx; cases h; cases hx
  | cons op ops ih =>
    intro l h x hx
    unfold drainOps at h
    by_cases hop : op = "(" ∨ op = ")"
    · rw [if_pos hop] at h; cases h
    · rw [if_neg hop] at h
      cases hrec : drainOps ops with
      | error e => rw [hrec] at h; cases h
      | ok rest =>
        rw [hrec] at h
        cases h
        rcases List.mem_cons.mp hx with rfl | hx'
        · exact ⟨op, List.mem_cons_self _ _, rfl,
            fun h1 => hop (Or.inl h1), fun h2 => hop (Or.inr h2)⟩
        · obtain ⟨o, ho, rfl, h1, h2⟩ := ih rest hrec x hx'
          exact ⟨o, List.mem_cons_of_mem _ ho, rfl, h1, h2⟩

theorem toRpnAux_out (T : List (List Char)) :
    ∀ (toks : List (List Char)) (output : List TokGram) (ops : List String)
      (rpn : List TokGram),
      (∀ t ∈ toks, t ∈ T) → (∀ x ∈ output, OutOk T x) →
      (∀ o ∈ ops, IsOpStr o ∨ o = "(") →
      toRpnAux toks output ops = .ok rpn → ∀ x ∈ rpn, OutOk T x := by
  intro toks
  induction toks with
  | nil =>
    intro output ops rpn _ hout hops h x hx
    unfold toRpnAux at h
    cases hd : drainOps ops with
    | error e => rw [hd] at h; cases h
    | ok rest =>
      rw [hd] at h
      cases h
      rcases List.mem_append.mp hx with hx' | hx'
      · exact hout x hx'
      · obtain ⟨o, ho, rfl, h1, _⟩ := drainOps_spec ops rest hd x hx'
        rcases hops o ho with hio | hparen
        · exact Or.inl ⟨o, hio, rfl⟩
        · exact absurd hparen h1
  | cons t ts ih =>
    intro output ops rpn hT hout hops h x hx
    unfold toRpnAux at h
    by_cases h1 : t = ['(']
    · rw [if_pos h1] at h
      refine ih output ("(" :: ops) rpn (fun u hu => hT u (List.mem_cons_of_mem _ hu))
        hout ?_ h x hx
      intro o ho
      rcases List.mem_cons.mp ho with rfl | ho'
      · exact Or.inr rfl
      · exact hops o ho'
    · rw [if_neg h1] at h
      by_cases h2 : t = [')']
      · rw [if_pos h2] at h
        cases hp : popUntilParen ops with
        | none => rw [hp] at h; cases h
        | some pr =>
          rw [hp] at h
          obtain ⟨hpop, hrest⟩ := popUntilParen_spec ops pr.1 pr.2 (by rw [hp])
          refine ih (output ++ pr.1.map TokGram.str) pr.2 rpn
            (fun u hu => hT u (List.mem_cons_of_mem _ hu)) ?_
            (fun o ho => hops o (hrest o ho)) h x hx
          intro y hy
          rcases List.mem_append.mp hy with hy' | hy'
          · exact hout y hy'
          · obtain ⟨o, ho, rfl⟩ := List.mem_map.mp hy'
            rcases hops o (hpop o ho).1 with hio | hparen
            · exact Or.inl ⟨o, hio, rfl⟩
            · exact absurd hparen (hpop o ho).2
      · rw [if_neg h2] at h
        have hts : ∀ u ∈ ts, u ∈ T := fun u hu => hT u (List.mem_cons_of_mem _ hu)
        by_cases h3 : t = "AND".toList
        · rw [if_pos h3] at h
          obtain ⟨hpop, hrest⟩ := popPrec_spec "AND" ops
          refine ih _ _ rpn hts ?_ ?_ h x hx
          · intro y hy
            rcases List.mem_append.mp hy with hy' | hy'
            · exact hout y hy'
            · obtain ⟨o, ho, rfl⟩ := List.mem_map.mp hy'
              exact Or.inl ⟨o, (hpop o ho).2, rfl⟩
          · intro o ho
            rcases List.mem_cons.mp ho with rfl | ho'
            · exact Or.inl (Or.inr (Or.inl rfl))
            · exact hops o (hrest o ho')
        · rw [if_neg h3] at h
          by_cases h4 : t = "OR".toList
          · rw [if_pos h4] at h
            obtain ⟨hpop, hrest⟩ := popPrec_spec "OR" ops
            refine ih _ _ rpn hts ?_ ?_ h x hx
            · intro y hy
              rcases List.mem_append.mp hy with hy' | hy'
              · exact hout y hy'
              · obtain ⟨o, ho, rfl⟩ := List.mem_map.mp hy'
                exact Or.inl ⟨o, (hpop o ho).2, rfl⟩
            · intro o ho
              rcases List.mem_cons.mp ho with rfl | ho'
              · exact Or.inl (Or.inr (Or.inr rfl))
              · exact hops o (hrest o ho')
          · rw [if_neg h4] at h
            by_cases h5 : t = "NOT".toList
            · rw [if_pos h5] at h
              obtain ⟨hpop, hrest⟩ := popPrec_spec "NOT" ops
              refine ih _ _ rpn hts ?_ ?_ h x hx
              · intro y hy
                rcases List.mem_append.mp hy with hy' | hy'
                · exact hout y hy'
                · obtain ⟨o, ho, rfl⟩ := List.mem_map.mp hy'
                  exact Or.inl ⟨o, (hpop o ho).2, rfl⟩
              · intro o ho
                rcases List.mem_cons.mp ho with rfl | ho'
                · exact Or.inl (Or.inl rfl)
                · exact hops o (hrest o ho')
            · rw [if_neg h5] at h
              refine ih _ _ rpn hts ?_ hops h x hx
              intro y hy
              rcases List.mem_append.mp hy with hy' | hy'
              · exact hout y hy'
              · rw [List.mem_singleton] at hy'
                subst hy'
                refine Or.inr ⟨t, hT t (List.mem_cons_self _ _), ?_, rfl⟩
                simp [isOpParen, h1, h2, h3, h4, h5]
                exact ⟨⟨h3, h4⟩, h5⟩

/-- Every set on the evaluation stack of `_eval_rpn` stays inside the query
universe: `NOT` pushes a subset of `U` by construction, `AND`/`OR` preserve
it, and operand pushes are covered by the hypothesis on the reverse-polish
entries. -/
theorem evalRpn_subset (pkg : Package) (U : List Nat) :
    ∀ (rpn : List TokGram) (stack : List (List Nat)) (S : List Nat),
      (∀ x ∈ rpn, (∃ o, IsOpStr o ∧ x = TokGram.str o) ∨
        ∀ d ∈ postingsForKey pkg x, d ∈ U) →
      (∀ s ∈ stack, ∀ d ∈ s, d ∈ U) →
      evalRpn pkg U rpn stack = .ok S → ∀ d ∈ S, d ∈ U := by
  intro rpn
  induction rpn with
  | nil =>
    intro stack S _ hstack h
    unfold evalRpn at h
    cases stack with
    | nil => cases h
    | cons a s =>
      cases s with
      | nil =>
        injection h with h2
        subst h2
        exact hstack a (List.mem_cons_self _ _)
      | cons b s' => cases h
  | cons tok rest ih =>
    intro stack S hok hstack h
    have hrest : ∀ x ∈ rest, (∃ o, IsOpStr o ∧ x = TokGram.str o) ∨
        ∀ d ∈ postingsForKey pkg x, d ∈ U :=
      fun x hx => hok x (List.mem_cons_of_mem _ hx)
    unfold evalRpn at h
    by_cases hN : tok = TokGram.str "NOT"
    · rw [if_pos hN] at h
      cases stack with
      | nil => cases h
      | cons a s =>
        refine ih _ S hrest ?_ h
        intro x hx d hd
        rcases List.mem_cons.mp hx with rfl | hx'
        · exact (mem_setDiff.mp hd).1
        · exact hstack x (List.mem_cons_of_mem _ hx') d hd
    · rw [if_neg hN] at h
      by_cases hA : tok = TokGram.str "AND"
      · rw [if_pos hA] at h
        cases stack with
        | nil => cases h
        | cons b s =>
          cases s with
          | nil => cases h
          | cons a s' =>
            refine ih _ S hrest ?_ h
            intro x hx d hd
            rcases List.mem_cons.mp hx with rfl | hx'
            · exact hstack a (List.mem_cons_of_mem _ (List.mem_cons_self _ _)) d
                (mem_setInter.mp hd).1
            · exact hstack x (List.mem_cons_of_mem _ (List.mem_cons_of_mem _ hx')) d hd
      · rw [if_neg hA] at h
        by_cases hO : tok = TokGram.str "OR"
        · rw [if_pos hO] at h
          cases stack with
          | nil => cases h
          | cons b s =>
            cases s with
            | nil => cases h
            | cons a s' =>
              refine ih _ S hrest ?_ h
              intro x hx d hd
              rcases List.mem_cons.mp hx with rfl | hx'
              · rcases mem_setUnion.mp hd with hda | hdb
                · exact hstack a (List.mem_cons_of_mem _ (List.mem_cons_self _ _)) d hda
                · exact hstack b (List.mem_cons_self _ _) d hdb
              · exact hstack x (List.mem_cons_of_mem _ (List.mem_cons_of_mem _ hx')) d hd
        · rw [if_neg hO] at h
          refine ih _ S hrest ?_ h
          intro x hx d hd
          rcases List.mem_cons.mp hx with rfl | hx'
          · rcases hok tok (List.mem_cons_self _ _) with ⟨o, hio, heq⟩ | hsub
            · rcases hio with rfl | rfl | rfl
              · exact absurd heq hN
              · exact absurd heq hA
              · exact absurd heq hO
            · exact hsub d hd
          · exact hstack x hx' d hd

/-- C10: for every boolean query and every package, when
`process_boolean_query` succeeds its document-id set is a subset of the query
universe U (the union of the postings of the query's operand tokens), and
every returned document lies in the postings of at least one operand that
appears in the query. -/
theorem boolean_result_subset_universe (pkg : Package) (query : String)
    (S : List Nat) (h : process_boolean_query pkg query = .ok S) :
    ∀ d ∈ S, d ∈ collect_universe pkg (findallTokens query) ∧
      ∃ t, t ∈ findallTokens query ∧ isOpParen t = false ∧
        d ∈ postingsForKey pkg (asKeyBool t) := by
  intro d hd
  unfold process_boolean_query at h
  dsimp only at h
  cases htr : toRpn (findallTokens query) with
  | error e => rw [htr] at h; cases h
  | ok rpn =>
    rw [htr] at h
    have hout : ∀ x ∈ rpn, OutOk (findallTokens query) x :=
      toRpnAux_out (findallTokens query) (findallTokens query) [] [] rpn
        (fun t ht => ht) (fun x hx => absurd hx (List.not_mem_nil x))
        (fun o ho => absurd ho (List.not_mem_nil o)) htr
    have hdu : d ∈ collect_universe pkg (findallTokens query) := by
      refine evalRpn_subset pkg (collect_universe pkg (findallTokens query)) rpn [] S
        ?_ (fun s hs => absurd hs (List.not_mem_nil s)) h d hd
      intro x hx
      rcases hout x hx with hop | ⟨t, ht, hnop, rfl⟩
      · exact Or.inl hop
      · exact Or.inr (fun d' hd' =>
          (collect_universe_mem pkg (findallTokens query) d').mpr ⟨t, ht, hnop, hd'⟩)
    exact ⟨hdu, (collect_universe_mem pkg (findallTokens query) d).mp hdu⟩

/-- Witness for C10 on the specification's example corpus and query. -/
theorem boolean_result_subset_universe_witness :
    10 ∈ collect_universe pkgBool (findallTokens "climate AND NOT science") ∧
      ∃ t, t ∈ findallTokens "climate AND NOT science" ∧ isOpParen t = false ∧
        10 ∈ postingsForKey pkgBool (asKeyBool t) :=
  boolean_result_subset_universe pkgBool "climate AND NOT science" [10]
    (by decide) 10 (by decide)

/-- C8: `detect_query_type` raises `MalformedQuery` (a `ValueError` carrying a
reason) for every query containing `*` together with a `NEAR/<int>` pattern,
the literal substring `NEAR`, a word-boundary boolean operator keyword, or a
quote character, and for every query containing the literal substring `NEAR`
together with a boolean operator keyword; the mixed-type rule itself never
fires on a query without `*` and without boolean operator keywords (so quoted
phrases combined with `NEAR/<k>` pass it), and a query that additionally
passes the global structural checks, has a single valid `NEAR/<k>` with
non-empty operands (`invalidNear` false), is classified as proximity. -/
theorem detection_mixed_types (q : String) :
    ((q.toList.any (· = '*') = true ∧
        (hasNearPattern q.toList = true ∨ containsSub "NEAR".toList q.toList = true ∨
          hasBoolOp q.toList = true ∨ q.toList.any (· = '"') = true)) →
      ∃ e, detect_query_type q = .error e) ∧
    (((hasNearPattern q.toList = true ∨ containsSub "NEAR".toList q.toList = true) ∧
        hasBoolOp q.toList = true) →
      ∃ e, detect_query_type q = .error e) ∧
    ((q.toList.any (· = '*') = false ∧ hasBoolOp q.toList = false) →
      hasMixedTypes q.toList = false) ∧
    ((hasUnmatchedQuotes q.toList = false ∧ balancedParens q.toList = true ∧
        badPhraseLengths q.toList = false ∧ hasUnknownOpToken q.toList = false ∧
        q.toList.any (· = '*') = false ∧ hasBoolOp q.toList = false ∧
        containsSub "NEAR".toList q.toList = true ∧ invalidNear q.toList = false) →
      detect_query_type q = .ok "proximity") := by
  simp only [String.toList]
  have herr : (∃ e, detect_query_type q = .error e) ∨
      (hasUnmatchedQuotes q.data = false ∧ balancedParens q.data = true ∧
        badPhraseLengths q.data = false ∧ hasUnknownOpToken q.data = false) := by
    by_cases h1 : hasUnmatchedQuotes q.data
    · refine Or.inl ⟨"Unmatched quotes", ?_⟩
      unfold detect_query_type
      dsimp only [String.toList]
      rw [if_pos h1]
    · by_cases h2 : balancedParens q.data
      · by_cases h3 : badPhraseLengths q.data
        · refine Or.inl ⟨"Phrases exceed max length 3 or empty phrase", ?_⟩
          unfold detect_query_type
          dsimp only [String.toList]
          rw [if_neg h1, if_neg (by simp [h2]), if_pos h3]
        · by_cases h4 : hasUnknownOpToken q.data
          · refine Or.inl ⟨"Unknown operator token", ?_⟩
            unfold detect_query_type
            dsimp only [String.toList]
            rw [if_neg h1, if_neg (by simp [h2]), if_neg h3, if_pos h4]
          · exact Or.inr ⟨Bool.eq_false_iff.mpr h1, h2,
              Bool.eq_false_iff.mpr h3, Bool.eq_false_iff.mpr h4⟩
      · refine Or.inl ⟨"Unbalanced parentheses", ?_⟩
        unfold detect_query_type
        dsimp only [String.toList]
        rw [if_neg h1, if_pos (by simp [h2])]
  have hmix : hasMixedTypes q.data = true → ∃ e, detect_query_type q = .error e := by
    intro hm
    rcases herr with he | ⟨h1, h2, h3, h4⟩
    · exact he
    · refine ⟨"Mixed query types are not supported", ?_⟩
      unfold detect_query_type
      dsimp only [String.toList]
      rw [if_neg (Bool.eq_false_iff.mp h1), if_neg (by simp [h2]),
        if_neg (Bool.eq_false_iff.mp h3), if_neg (Bool.eq_false_iff.mp h4), if_pos hm]
  refine ⟨?_, ?_, ?_, ?_⟩
  · rintro ⟨hstar, hrest⟩
    refine hmix ?_
    unfold hasMixedTypes
    rcases hrest with h | h | h | h <;> simp_all
  · rintro ⟨hnear, hbool⟩
    refine hmix ?_
    unfold hasMixedTypes
    rcases hnear with h | h <;> simp_all
  · rintro ⟨hstar, hbool⟩
    unfold hasMixedTypes
    simp_all
    intro hmem
    exact absurd rfl (hstar '*' hmem)
  · rintro ⟨h1, h2, h3, h4, hstar, hbool, hnear, hvalid⟩
    unfold detect_query_type
    dsimp only [String.toList]
    rw [if_neg (Bool.eq_false_iff.mp h1), if_neg (by simp [h2]),
      if_neg (Bool.eq_false_iff.mp h3), if_neg (Bool.eq_false_iff.mp h4)]
    have hm : hasMixedTypes q.data = false := by
      unfold hasMixedTypes
      simp_all
    rw [if_neg (Bool.eq_false_iff.mp hm), if_pos (by simp [hnear]),
      if_neg (Bool.eq_false_iff.mp hvalid)]

/-- Witness for C8: the mixed-type rejections at concrete queries, and the
proximity classification of the specification's quoted-phrase NEAR query. -/
theorem detection_mixed_types_witness :
    (∃ e, detect_query_type "climat* AND change" = .error e) ∧
      (∃ e, detect_query_type "climate NEAR/2 change AND effects" = .error e) ∧
      detect_query_type "\"machine learning\" NEAR/2 algorithms" = .ok "proximity" :=
  ⟨(detection_mixed_types "climat* AND change").1 (by decide),
    (detection_mixed_types "climate NEAR/2 change AND effects").2.1 (by decide),
    (detection_mixed_types "\"machine learning\" NEAR/2 algorithms").2.2.2 (by decide)⟩

/-- C5: for every proximity query that parses as `L NEAR/k R`, a document is
returned by `process_proximity_query` iff it is a candidate (a member of both
operands' posting lists) and it contains a left-operand span and a
right-operand span that are not identical and whose edge-to-edge distance is
at most `k`; the distance is 0 exactly when the spans overlap, and otherwise
the minimal edge gap in either order; in particular, on the specification's
example corpus, `change NEAR/0 "climate change"` hits document 10 because the
left span `(1,1)` overlaps the phrase span `(0,1)` at distance 0. -/
theorem proximity_near_semantics (pkg : Package) (q : String)
    (lstr : List Char) (k : Nat) (rstr : List Char)
    (hp : parse_near q.toList = .ok (lstr, k, rstr)) :
    (∃ S, process_proximity_query pkg q = .ok S ∧
      ∀ d, d ∈ S ↔
        ((d ∈ get_posting_list pkg (asKeyProx lstr) ∧
            d ∈ get_posting_list pkg (asKeyProx rstr)) ∧
          ∃ a ∈ spanPositions pkg (asKeyProx lstr) d,
            ∃ b ∈ spanPositions pkg (asKeyProx rstr) d,
              ¬ a = b ∧ edgeDistance a b ≤ k)) ∧
    (∀ a b : Nat × Nat, edgeDistance a b = 0 ↔ ¬ (a.2 < b.1 ∨ b.2 < a.1) ∨
      min ((b.1 : Int) - (a.2 : Int)).natAbs ((a.1 : Int) - (b.2 : Int)).natAbs = 0) ∧
    (∃ S, process_proximity_query pkgBool "change NEAR/0 \"climate change\"" = .ok S ∧
      10 ∈ S ∧
      spanPositions pkgBool (asKeyProx "change".toList) 10 = [(1, 1)] ∧
      spanPositions pkgBool (asKeyProx "\"climate change\"".toList) 10 = [(0, 1)] ∧
      edgeDistance (1, 1) (0, 1) = 0) := by
  refine ⟨?_, ?_, ?_⟩
  · have heq : process_proximity_query pkg q =
        .ok ((setInter (get_posting_list pkg (asKeyProx lstr))
            (get_posting_list pkg (asKeyProx rstr))).filter (fun did =>
          (spanPositions pkg (asKeyProx lstr) did).any (fun a =>
            (spanPositions pkg (asKeyProx rstr) did).any (fun b =>
              decide (¬ a = b) && decide (edgeDistance a b ≤ k))))) := by
      unfold process_proximity_query
      dsimp only [String.toList] at hp ⊢
      rw [hp]
    refine ⟨_, heq, ?_⟩
    intro d
    simp only [List.mem_filter, mem_setInter, List.any_eq_true, Bool.and_eq_true,
      decide_eq_true_eq]
  · intro a b
    unfold edgeDistance
    by_cases h : ¬ (a.2 < b.1 ∨ b.2 < a.1)
    · rw [if_pos h]
      simp [h]
    · rw [if_neg h]
      simp [h]
  · exact ⟨[10], by decide, by decide, by decide, by decide, by decide⟩

/-- Witness for C5: the general iff applied to the example query on the
example corpus shows document 10 is returned. -/
theorem proximity_near_semantics_witness :
    ∃ S, process_proximity_query pkgBool "change NEAR/0 \"climate change\"" = .ok S ∧
      10 ∈ S :=
  match (proximity_near_semantics pkgBool "change NEAR/0 \"climate change\""
      "change".toList 0 "\"climate change\"".toList (by decide)).1 with
  | ⟨S, hS, hiff⟩ =>
    ⟨S, hS, (hiff 10).mpr (by decide)⟩

/-- The ranking key order is total. -/
theorem rankKeyLe_total (score : Nat → ℝ) :
    ∀ a b, rankKeyLe score a b ∨ rankKeyLe score b a := by
  intro a b
  rcases lt_trichotomy (score a) (score b) with h | h | h
  · exact Or.inr (Or.inl h)
  · rcases Nat.le_total a b with hab | hba
    · exact Or.inl (Or.inr ⟨h, hab⟩)
    · exact Or.inr (Or.inr ⟨h.symm, hba⟩)
  · exact Or.inl (Or.inl h)

/-- The ranking key order is transitive. -/
theorem rankKeyLe_trans (score : Nat → ℝ) :
    ∀ a b c, rankKeyLe score a b → rankKeyLe score b c → rankKeyLe score a c := by
  intro a b c hab hbc
  rcases hab with h1 | ⟨h1, h1'⟩
  · rcases hbc with h2 | ⟨h2, _⟩
    · exact Or.inl (h2.trans h1)
    · exact Or.inl (h2 ▸ h1)
  · rcases hbc with h2 | ⟨h2, h2'⟩
    · exact Or.inl (by rw [h1]; exact h2)
    · exact Or.inr ⟨h1.trans h2, h1'.trans h2'⟩

/-- BM25 of an empty query list is identically zero. -/
theorem bm25Score_nil (pkg : Package) (d : Nat) : bm25Score pkg [] d = 0 :=
  rfl

/-- TF-IDF of an empty query list is identically zero. -/
theorem tfidfScore_nil (pkg : Package) (d : Nat) : tfidfScore pkg [] d = 0 :=
  rfl

/-- C4: for every query-token list, candidate id list and method string,
`rank_documents` returns a permutation of the input candidate ids with scores
aligned to the returned order under the scoring function it selected, sorted
by descending score with ties broken by ascending document id; with an empty
query-token list the selected score is identically 0 and the ids come back in
ascending order; and every unrecognized method name behaves exactly like
`"bm25"` (the function is total, so no method name raises). -/
theorem rank_documents_round_trip (pkg : Package) (query_toks : List String)
    (candidate_docs : List (List String)) (doc_ids : List Nat) (method : String) :
    (∃ score : Nat → ℝ,
      (rank_documents pkg query_toks candidate_docs doc_ids method).1.Perm doc_ids ∧
      (rank_documents pkg query_toks candidate_docs doc_ids method).2 =
        (rank_documents pkg query_toks candidate_docs doc_ids method).1.map score ∧
      (rank_documents pkg query_toks candidate_docs doc_ids method).1.Pairwise
        (rankKeyLe score) ∧
      (query_toks = [] → ∀ d, score d = 0)) ∧
    (query_toks = [] →
      (rank_documents pkg query_toks candidate_docs doc_ids method).1.Pairwise (· ≤ ·)) ∧
    ((¬ pyLower (if method = "" then "default" else method) = "default" ∧
        ¬ pyLower (if method = "" then "default" else method) = "bm25" ∧
        ¬ pyLower (if method = "" then "default" else method) = "tfidf") →
      rank_documents pkg query_toks candidate_docs doc_ids method =
        rank_documents pkg query_toks candidate_docs doc_ids "bm25") := by
  have hmain : ∃ score : Nat → ℝ,
      (rank_documents pkg query_toks candidate_docs doc_ids method).1.Perm doc_ids ∧
      (rank_documents pkg query_toks candidate_docs doc_ids method).2 =
        (rank_documents pkg query_toks candidate_docs doc_ids method).1.map score ∧
      (rank_documents pkg query_toks candidate_docs doc_ids method).1.Pairwise
        (rankKeyLe score) ∧
      (query_toks = [] → ∀ d, score d = 0) := by
    unfold rank_documents
    by_cases hids : doc_ids = []
    · subst hids
      rw [if_pos rfl]
      exact ⟨fun _ => 0, List.Perm.refl _, rfl, List.Pairwise.nil, fun _ _ => rfl⟩
    · rw [if_neg hids]
      dsimp only
      set score := if pyLower (if method = "" then "default" else method) = "default" ∨
          pyLower (if method = "" then "default" else method) = "bm25" then
          bm25Score pkg query_toks
        else if pyLower (if method = "" then "default" else method) = "tfidf" then
          tfidfScore pkg query_toks
        else bm25Score pkg query_toks with hscore
      letI : DecidableRel (rankKeyLe score) := fun _ _ => Classical.propDecidable _
      refine ⟨score, List.perm_insertionSort _ _, rfl, ?_, ?_⟩
      · haveI : IsTotal Nat (rankKeyLe score) := ⟨rankKeyLe_total score⟩
        haveI : IsTrans Nat (rankKeyLe score) := ⟨rankKeyLe_trans score⟩
        exact List.sorted_insertionSort (rankKeyLe score) doc_ids
      · intro hq d
        subst hq
        rw [hscore]
        by_cases h1 : pyLower (if method = "" then "default" else method) = "default" ∨
            pyLower (if method = "" then "default" else method) = "bm25"
        · rw [if_pos h1]; exact bm25Score_nil pkg d
        · rw [if_neg h1]
          by_cases h2 : pyLower (if method = "" then "default" else method) = "tfidf"
          · rw [if_pos h2]; exact tfidfScore_nil pkg d
          · rw [if_neg h2]; exact bm25Score_nil pkg d
  refine ⟨hmain, ?_, ?_⟩
  · intro hq
    obtain ⟨score, _, _, hpair, hzero⟩ := hmain
    exact hpair.imp (fun {a b} hab => by
      rcases hab with h | ⟨_, h⟩
      · rw [hzero hq a, hzero hq b] at h
        exact absurd h (lt_irrefl 0)
      · exact h)
  · rintro ⟨h1, h2, h3⟩
    unfold rank_documents
    by_cases hids : doc_ids = []
    · rw [if_pos hids, if_pos hids]
    · rw [if_neg hids, if_neg hids]
      dsimp only
      rw [if_neg (by rintro (h | h); exacts [h1 h, h2 h]), if_neg h3,
        if_pos (by right; decide)]

/-- Witness for C4: an empty query over out-of-order candidate ids under an
unrecognized method comes back as a permutation (here: sorted ascending). -/
theorem rank_documents_round_trip_witness :
    (rank_documents pkgEmpty [] [] [20, 10] "mystery").1.Perm [20, 10] ∧
      (rank_documents pkgEmpty [] [] [20, 10] "mystery").1.Pairwise (· ≤ ·) ∧
      rank_documents pkgEmpty [] [] [20, 10] "mystery" =
        rank_documents pkgEmpty [] [] [20, 10] "bm25" :=
  ⟨(rank_documents_round_trip pkgEmpty [] [] [20, 10] "mystery").1.choose_spec.1,
    (rank_documents_round_trip pkgEmpty [] [] [20, 10] "mystery").2.1 rfl,
    (rank_documents_round_trip pkgEmpty [] [] [20, 10] "mystery").2.2
      (by refine ⟨?_, ?_, ?_⟩ <;> decide)⟩

/-! ## BM25 length-normalization example (specification section 8) -/

theorem pkgBm_avgdl : pkgBm.avgdl = 51 := by
  show (create_all_indexes corpusBm).avgdl = 51
  unfold create_all_indexes
  dsimp only
  rw [if_pos (by decide : 0 < corpusBm.length)]
  rw [show (buildState corpusBm).totalLen = 102 from by decide]
  norm_num [corpusBm]

/-- The BM25 score of either document of `corpusBm` in closed form. -/
theorem bm25_score_eq (d dl : Nat) (hdl : pkgBm.docLengths d = some dl)
    (htf : tfOf pkgBm "t" d = 1) :
    bm25Score pkgBm ["t"] d =
      idfBm25 2 2 * (2.2 / (1 + 1.2 * (0.25 + 0.75 * ((max 1 dl : ℕ) / (51:ℝ))))) := by
  unfold bm25Score
  dsimp only
  rw [show dedupKeepFirst ["t"] = ["t"] from rfl]
  simp only [List.map_cons, List.map_nil, List.sum_cons, List.sum_nil]
  rw [hdl, htf, pkgBm_avgdl, show dfOf pkgBm "t" = 2 from by decide,
    show pkgBm.metaN = 2 from by decide]
  norm_num [Option.getD_some]

/-- The shared idf `ln((2 - 2 + 0.5) / (2 + 0.5) + 1) = ln 1.2` is positive. -/
theorem idfBm25_pos : 0 < idfBm25 2 2 := by
  unfold idfBm25
  have h : (((2:Nat):ℝ) - ((2:Nat):ℝ) + 0.5) / (((2:Nat):ℝ) + 0.5) + 1 = 1.2 := by
    norm_num
  rw [h]
  exact Real.log_pos (by norm_num)

theorem bm25_score_compare : bm25Score pkgBm ["t"] 2 < bm25Score pkgBm ["t"] 1 := by
  rw [bm25_score_eq 1 1 (by decide) (by decide),
    bm25_score_eq 2 101 (by decide) (by decide)]
  apply mul_lt_mul_of_pos_left ?_ idfBm25_pos
  norm_num

theorem bm25_rank_key_not : ¬ rankKeyLe (bm25Score pkgBm ["t"]) 2 1 := by
  rintro (h | ⟨h, h'⟩)
  · exact absurd h (not_lt.mpr (le_of_lt bm25_score_compare))
  · exact absurd h' (by decide)

/-- C9: on a corpus of two documents that each contain the query term `"t"`
exactly once, with lengths 1 (document 1) and 101 (document 2), BM25 gives
the shorter document a strictly higher score, and `rank_documents` ranks it
first under both method `"bm25"` and method `"default"`, even when the
candidates are supplied in the order `[2, 1]`. -/
theorem bm25_shorter_doc_ranks_first :
    bm25Score pkgBm ["t"] 2 < bm25Score pkgBm ["t"] 1 ∧
      (rank_documents pkgBm ["t"] [] [2, 1] "bm25").1 = [1, 2] ∧
      (rank_documents pkgBm ["t"] [] [2, 1] "default").1 = [1, 2] := by
  refine ⟨bm25_score_compare, ?_, ?_⟩
  · unfold rank_documents
    rw [if_neg (by decide : ¬ ([2, 1] : List Nat) = [])]
    dsimp only
    rw [if_pos (by decide :
      pyLower (if ("bm25" : String) = "" then "default" else "bm25") = "default" ∨
        pyLower (if ("bm25" : String) = "" then "default" else "bm25") = "bm25")]
    letI : DecidableRel (rankKeyLe (bm25Score pkgBm ["t"])) :=
      fun _ _ => Classical.propDecidable _
    show List.orderedInsert (rankKeyLe (bm25Score pkgBm ["t"])) 2 [1] = [1, 2]
    simp only [List.orderedInsert]
    rw [if_neg bm25_rank_key_not]
  · unfold rank_documents
    rw [if_neg (by decide : ¬ ([2, 1] : List Nat) = [])]
    dsimp only
    rw [if_pos (by decide :
      pyLower (if ("default" : String) = "" then "default" else "default") = "default" ∨
        pyLower (if ("default" : String) = "" then "default" else "default") = "bm25")]
    letI : DecidableRel (rankKeyLe (bm25Score pkgBm ["t"])) :=
      fun _ _ => Classical.propDecidable _
    show List.orderedInsert (rankKeyLe (bm25Score pkgBm ["t"])) 2 [1] = [1, 2]
    simp only [List.orderedInsert]
    rw [if_neg bm25_rank_key_not]

/-! ## Characterization of the index builder

The following lemmas characterize the builder state after the single pass:
postings and wildcard sets by membership (Python sets), proximity position
lists by value (appended in pass order), document lengths and the token total
directly. -/

theorem mem_setAdd {α : Type} [DecidableEq α] {x y : α} {l : List α} :
    y ∈ setAdd x l ↔ y = x ∨ y ∈ l := by
  unfold setAdd
  by_cases h : x ∈ l
  · rw [if_pos h]
    constructor
    · exact Or.inr
    · rintro (rfl | hy)
      exacts [h, hy]
  · rw [if_neg h]
    exact List.mem_cons

theorem nodup_setAdd {α : Type} [DecidableEq α] {x : α} {l : List α}
    (h : l.Nodup) : (setAdd x l).Nodup := by
  unfold setAdd
  by_cases hx : x ∈ l
  · rw [if_pos hx]; exact h
  · rw [if_neg hx]; exact List.Nodup.cons hx h

/-- The n-gram fold only touches `unifiedSets` and `proxLists`. -/
theorem addNgram_fold_frame (did : Nat) :
    ∀ (pairs : List (TokGram × Nat)) (st : BuildState),
      (pairs.foldl (addNgram did) st).wildcardSets = st.wildcardSets ∧
      (pairs.foldl (addNgram did) st).docLengths = st.docLengths ∧
      (pairs.foldl (addNgram did) st).totalLen = st.totalLen := by
  intro pairs
  induction pairs with
  | nil => exact fun st => ⟨rfl, rfl, rfl⟩
  | cons p ps ih =>
    intro st
    simpa only [List.foldl_cons] using ih (addNgram did st p)

/-- The wildcard fold only touches `wildcardSets`. -/
theorem addWildcardTerm_fold_frame :
    ∀ (terms : List String) (st : BuildState),
      (terms.foldl addWildcardTerm st).unifiedSets = st.unifiedSets ∧
      (terms.foldl addWildcardTerm st).proxLists = st.proxLists ∧
      (terms.foldl addWildcardTerm st).docLengths = st.docLengths ∧
      (terms.foldl addWildcardTerm st).totalLen = st.totalLen := by
  intro terms
  induction terms with
  | nil => exact fun st => ⟨rfl, rfl, rfl, rfl⟩
  | cons t ts ih =>
    intro st
    have hstep : ∀ st' : BuildState,
        (addWildcardTerm st' t).unifiedSets = st'.unifiedSets ∧
        (addWildcardTerm st' t).proxLists = st'.proxLists ∧
        (addWildcardTerm st' t).docLengths = st'.docLengths ∧
        (addWildcardTerm st' t).totalLen = st'.totalLen := by
      intro st'
      unfold addWildcardTerm
      generalize charNgrams t.toList = grams
      induction grams generalizing st' with
      | nil => exact ⟨rfl, rfl, rfl, rfl⟩
      | cons g gs ihg => simpa only [List.foldl_cons] using ihg _
    obtain ⟨h1, h2, h3, h4⟩ := hstep st
    obtain ⟨h1', h2', h3', h4'⟩ := ih (addWildcardTerm st t)
    simp only [List.foldl_cons]
    exact ⟨h1'.trans h1, h2'.trans h2, h3'.trans h3, h4'.trans h4⟩

/-- Membership in a postings set after the n-gram fold of one document. -/
theorem addNgram_fold_unified_mem (did : Nat) :
    ∀ (pairs : List (TokGram × Nat)) (st : BuildState) (k : TokGram) (d : Nat),
      d ∈ ((pairs.foldl (addNgram did) st).unifiedSets k) ↔
        (d = did ∧ k ∈ pairs.map Prod.fst) ∨ d ∈ st.unifiedSets k := by
  intro pairs
  induction pairs with
  | nil => simp
  | cons p ps ih =>
    intro st k d
    simp only [List.foldl_cons, ih, List.map_cons, List.mem_cons]
    by_cases hk : k = p.1
    · have hstep : d ∈ (addNgram did st p).unifiedSets k ↔
          d = did ∨ d ∈ st.unifiedSets k := by
        show d ∈ (if k = p.1 then setAdd did (st.unifiedSets p.1) else
          st.unifiedSets k) ↔ _
        rw [if_pos hk, hk, mem_setAdd]
      rw [hstep]
      subst hk
      constructor
      · rintro (⟨rfl, hmem⟩ | (rfl | hmem))
        · exact Or.inl ⟨rfl, Or.inr hmem⟩
        · exact Or.inl ⟨rfl, Or.inl rfl⟩
        · exact Or.inr hmem
      · rintro (⟨rfl, _ | hmem⟩ | hmem)
        · exact Or.inr (Or.inl rfl)
        · exact Or.inl ⟨rfl, hmem⟩
        · exact Or.inr (Or.inr hmem)
    · have hstep : (addNgram did st p).unifiedSets k = st.unifiedSets k := by
        show (if k = p.1 then setAdd did (st.unifiedSets p.1) else
          st.unifiedSets k) = _
        rw [if_neg hk]
      rw [hstep]
      constructor
      · rintro (⟨rfl, hmem⟩ | hmem)
        · exact Or.inl ⟨rfl, Or.inr hmem⟩
        · exact Or.inr hmem
      · rintro (⟨rfl, heq | hmem⟩ | hmem)
        · exact absurd heq hk
        · exact Or.inl ⟨rfl, hmem⟩
        · exact Or.inr hmem

/-- The n-gram fold preserves duplicate-freeness of every postings set. -/
theorem addNgram_fold_unified_nodup (did : Nat) :
    ∀ (pairs : List (TokGram × Nat)) (st : BuildState),
      (∀ k, (st.unifiedSets k).Nodup) →
      ∀ k, ((pairs.foldl (addNgram did) st).unifiedSets k).Nodup := by
  intro pairs
  induction pairs with
  | nil => exact fun st h => h
  | cons p ps ih =>
    intro st h
    refine ih _ ?_
    intro k
    show List.Nodup (if k = p.1 then setAdd did (st.unifiedSets p.1) else
      st.unifiedSets k)
    by_cases hk : k = p.1
    · rw [if_pos hk]
      exact nodup_setAdd (h p.1)
    · rw [if_neg hk]
      exact h k

/-- The per-document position list after the n-gram fold of one document:
positions are appended in visit order. -/
theorem addNgram_fold_prox (did : Nat) :
    ∀ (pairs : List (TokGram × Nat)) (st : BuildState) (k : TokGram) (d : Nat),
      (pairs.foldl (addNgram did) st).proxLists k d =
        st.proxLists k d ++
          (if d = did then pairs.filterMap (fun p => if p.1 = k then some p.2 else none)
           else []) := by
  intro pairs
  induction pairs with
  | nil => simp
  | cons p ps ih =>
    intro st k d
    simp only [List.foldl_cons, ih, List.filterMap_cons]
    have hstep : ∀ k' d', (addNgram did st p).proxLists k' d' =
        if k' = p.1 ∧ d' = did then st.proxLists p.1 did ++ [p.2]
        else st.proxLists k' d' := fun _ _ => rfl
    by_cases hd : d = did
    · subst hd
      by_cases hk : p.1 = k
      · rw [if_pos rfl, if_pos rfl, hstep, if_pos ⟨hk.symm, rfl⟩, hk, List.append_assoc]
        simp
      · rw [if_pos rfl, if_pos rfl, hstep, if_neg (fun hc => hk hc.1.symm)]
        simp [hk]
    · rw [if_neg hd, if_neg hd, hstep, if_neg (fun hc => hd hc.2)]

/-- Membership in a wildcard gram set after inserting one term. -/
theorem addWildcardTerm_wild_mem (st : BuildState) (term : String) (g : List Char)
    (t : String) :
    t ∈ (addWildcardTerm st term).wildcardSets g ↔
      (t = term ∧ g ∈ charNgrams term.toList) ∨ t ∈ st.wildcardSets g := by
  unfold addWildcardTerm
  generalize charNgrams term.toList = grams
  induction grams generalizing st with
  | nil => simp
  | cons cg gs ih =>
    simp only [List.foldl_cons, ih, List.mem_cons]
    have hstep : ∀ g', t ∈ (if g' = cg then setAdd term (st.wildcardSets cg)
        else st.wildcardSets g') ↔
        (g' = cg ∧ t = term) ∨ t ∈ st.wildcardSets g' := by
      intro g'
      by_cases hg : g' = cg
      · rw [if_pos hg, mem_setAdd, hg]
        tauto
      · rw [if_neg hg]
        tauto
    rw [hstep g]
    tauto

/-- The wildcard gram sets stay duplicate-free after inserting one term. -/
theorem addWildcardTerm_wild_nodup (st : BuildState) (term : String)
    (h : ∀ g, (st.wildcardSets g).Nodup) :
    ∀ g, ((addWildcardTerm st term).wildcardSets g).Nodup := by
  unfold addWildcardTerm
  generalize charNgrams term.toList = grams
  induction grams generalizing st with
  | nil => exact h
  | cons cg gs ih =>
    simp only [List.foldl_cons]
    refine ih _ ?_
    intro g
    show List.Nodup (if g = cg then setAdd term (st.wildcardSets cg) else
      st.wildcardSets g)
    by_cases hg : g = cg
    · rw [if_pos hg]
      exact nodup_setAdd (h cg)
    · rw [if_neg hg]
      exact h g

/-- Membership in a wildcard gram set after the distinct-token fold. -/
theorem wildcard_fold_mem :
    ∀ (terms : List String) (st : BuildState) (g : List Char) (t : String),
      t ∈ ((terms.foldl addWildcardTerm st).wildcardSets g) ↔
        (t ∈ terms ∧ g ∈ charNgrams t.toList) ∨ t ∈ st.wildcardSets g := by
  intro terms
  induction terms with
  | nil => simp
  | cons u us ih =>
    intro st g t
    simp only [List.foldl_cons, ih, addWildcardTerm_wild_mem, List.mem_cons]
    constructor
    · rintro (⟨hmem, hg⟩ | (⟨rfl, hg⟩ | hmem))
      · exact Or.inl ⟨Or.inr hmem, hg⟩
      · exact Or.inl ⟨Or.inl rfl, hg⟩
      · exact Or.inr hmem
    · rintro (⟨rfl | hmem, hg⟩ | hmem)
      · exact Or.inr (Or.inl ⟨rfl, hg⟩)
      · exact Or.inl ⟨hmem, hg⟩
      · exact Or.inr (Or.inr hmem)

theorem wildcard_fold_nodup :
    ∀ (terms : List String) (st : BuildState),
      (∀ g, (st.wildcardSets g).Nodup) →
      ∀ g, ((terms.foldl addWildcardTerm st).wildcardSets g).Nodup := by
  intro terms
  induction terms with
  | nil => exact fun st h => h
  | cons u us ih =>
    intro st h
    exact ih _ (addWildcardTerm_wild_nodup st u h)

/-- Membership after deduplication with a seen list. -/
theorem mem_dedupAux {α : Type} [DecidableEq α] :
    ∀ (l seen : List α) (x : α), x ∈ dedupAux seen l ↔ x ∈ l ∧ ¬ x ∈ seen := by
  intro l
  induction l with
  | nil => simp [dedupAux]
  | cons a l ih =>
    intro seen x
    unfold dedupAux
    by_cases ha : a ∈ seen
    · rw [if_pos ha, ih]
      simp only [List.mem_cons]
      constructor
      · rintro ⟨hl, hs⟩
        exact ⟨Or.inr hl, hs⟩
      · rintro ⟨rfl | hl, hs⟩
        · exact absurd ha hs
        · exact ⟨hl, hs⟩
    · rw [if_neg ha]
      simp only [List.mem_cons, ih, List.mem_cons]
      constructor
      · rintro (rfl | ⟨hl, hs⟩)
        · exact ⟨Or.inl rfl, ha⟩
        · exact ⟨Or.inr hl, fun hc => hs (Or.inr hc)⟩
      · rintro ⟨rfl | hl, hs⟩
        · exact Or.inl rfl
        · by_cases hxa : x = a
          · exact Or.inl hxa
          · exact Or.inr ⟨hl, fun hc => hs (by
              rcases hc with h1 | h1
              exacts [absurd h1 hxa, h1])⟩

/-- `dedupKeepFirst` preserves membership (it models `set(tokens)`). -/
theorem mem_dedupKeepFirst {α : Type} [DecidableEq α] (l : List α) (x : α) :
    x ∈ dedupKeepFirst l ↔ x ∈ l := by
  unfold dedupKeepFirst
  rw [mem_dedupAux]
  simp

/-- Membership in a postings set after processing one document. -/
theorem processDoc_unified_mem (st : BuildState) (p : Nat × List String)
    (k : TokGram) (d : Nat) :
    d ∈ (processDoc st p).unifiedSets k ↔
      (d = p.1 ∧ occursKey k p.2) ∨ d ∈ st.unifiedSets k := by
  unfold processDoc occursKey
  rw [(addWildcardTerm_fold_frame (dedupKeepFirst p.2) _).1,
    addNgram_fold_unified_mem]

/-- Position lists after processing one document. -/
theorem processDoc_prox (st : BuildState) (p : Nat × List String)
    (k : TokGram) (d : Nat) :
    (processDoc st p).proxLists k d =
      st.proxLists k d ++ (if d = p.1 then occPositions k p.2 else []) := by
  unfold processDoc occPositions
  rw [(addWildcardTerm_fold_frame (dedupKeepFirst p.2) _).2.1,
    addNgram_fold_prox]

/-- Membership in a wildcard gram set after processing one document. -/
theorem processDoc_wild_mem (st : BuildState) (p : Nat × List String)
    (g : List Char) (t : String) :
    t ∈ (processDoc st p).wildcardSets g ↔
      (t ∈ p.2 ∧ g ∈ charNgrams t.toList) ∨ t ∈ st.wildcardSets g := by
  unfold processDoc
  rw [wildcard_fold_mem, (addNgram_fold_frame p.1 (tokenNgrams p.2) _).1,
    mem_dedupKeepFirst]

/-- Document lengths after processing one document. -/
theorem processDoc_docLengths (st : BuildState) (p : Nat × List String) (d : Nat) :
    (processDoc st p).docLengths d =
      if d = p.1 then some p.2.length else st.docLengths d := by
  unfold processDoc
  rw [(addWildcardTerm_fold_frame (dedupKeepFirst p.2) _).2.2.1,
    (addNgram_fold_frame p.1 (tokenNgrams p.2) _).2.1]

/-- Total token count after processing one document. -/
theorem processDoc_totalLen (st : BuildState) (p : Nat × List String) :
    (processDoc st p).totalLen = st.totalLen + p.2.length := by
  unfold processDoc
  rw [(addWildcardTerm_fold_frame (dedupKeepFirst p.2) _).2.2.2,
    (addNgram_fold_frame p.1 (tokenNgrams p.2) _).2.2]

theorem processDoc_unified_nodup (st : BuildState) (p : Nat × List String)
    (h : ∀ k, (st.unifiedSets k).Nodup) :
    ∀ k, ((processDoc st p).unifiedSets k).Nodup := by
  intro k
  unfold processDoc
  rw [(addWildcardTerm_fold_frame (dedupKeepFirst p.2) _).1]
  refine addNgram_fold_unified_nodup p.1 (tokenNgrams p.2) _ ?_ k
  exact h

theorem processDoc_wild_nodup (st : BuildState) (p : Nat × List String)
    (h : ∀ g, (st.wildcardSets g).Nodup) :
    ∀ g, ((processDoc st p).wildcardSets g).Nodup := by
  unfold processDoc
  refine wildcard_fold_nodup _ _ ?_
  intro g
  rw [(addNgram_fold_frame p.1 (tokenNgrams p.2) _).1]
  exact h g

/-- Postings membership over the whole pass, for any initial state. -/
theorem foldl_processDoc_unified_mem :
    ∀ (c : List (Nat × List String)) (st : BuildState) (k : TokGram) (d : Nat),
      d ∈ ((c.foldl processDoc st).unifiedSets k) ↔
        (∃ p, p ∈ c ∧ p.1 = d ∧ occursKey k p.2) ∨ d ∈ st.unifiedSets k := by
  intro c
  induction c with
  | nil => simp
  | cons p ps ih =>
    intro st k d
    simp only [List.foldl_cons, ih, processDoc_unified_mem, List.mem_cons]
    constructor
    · rintro (⟨q, hq, rfl, hocc⟩ | (⟨rfl, hocc⟩ | hmem))
      · exact Or.inl ⟨q, Or.inr hq, rfl, hocc⟩
      · exact Or.inl ⟨p, Or.inl rfl, rfl, hocc⟩
      · exact Or.inr hmem
    · rintro (⟨q, rfl | hq, rfl, hocc⟩ | hmem)
      · exact Or.inr (Or.inl ⟨rfl, hocc⟩)
      · exact Or.inl ⟨q, hq, rfl, hocc⟩
      · exact Or.inr (Or.inr hmem)

/-- Wildcard membership over the whole pass, for any initial state. -/
theorem foldl_processDoc_wild_mem :
    ∀ (c : List (Nat × List String)) (st : BuildState) (g : List Char) (t : String),
      t ∈ ((c.foldl processDoc st).wildcardSets g) ↔
        (∃ p, p ∈ c ∧ t ∈ p.2 ∧ g ∈ charNgrams t.toList) ∨ t ∈ st.wildcardSets g := by
  intro c
  induction c with
  | nil => simp
  | cons p ps ih =>
    intro st g t
    simp only [List.foldl_cons, ih, processDoc_wild_mem, List.mem_cons]
    constructor
    · rintro (⟨q, hq, hmem, hg⟩ | (⟨hmem, hg⟩ | hmem))
      · exact Or.inl ⟨q, Or.inr hq, hmem, hg⟩
      · exact Or.inl ⟨p, Or.inl rfl, hmem, hg⟩
      · exact Or.inr hmem
    · rintro (⟨q, rfl | hq, hmem, hg⟩ | hmem)
      · exact Or.inr (Or.inl ⟨hmem, hg⟩)
      · exact Or.inl ⟨q, hq, hmem, hg⟩
      · exact Or.inr (Or.inr hmem)

/-- Position lists over the whole pass: per-document chunks are appended in
corpus order. -/
theorem foldl_processDoc_prox :
    ∀ (c : List (Nat × List String)) (st : BuildState) (k : TokGram) (d : Nat),
      (c.foldl processDoc st).proxLists k d =
        st.proxLists k d ++
          c.flatMap (fun p => if d = p.1 then occPositions k p.2 else []) := by
  intro c
  induction c with
  | nil => simp
  | cons p ps ih =>
    intro st k d
    simp only [List.foldl_cons, ih, processDoc_prox, List.flatMap_cons,
      List.append_assoc]

/-- Document lengths are untouched by documents with other ids. -/
theorem foldl_processDoc_docLengths_notmem :
    ∀ (c : List (Nat × List String)) (st : BuildState) (d : Nat),
      ¬ d ∈ c.map Prod.fst →
      (c.foldl processDoc st).docLengths d = st.docLengths d := by
  intro c
  induction c with
  | nil => exact fun st d _ => rfl
  | cons p ps ih =>
    intro st d hd
    simp only [List.map_cons, List.mem_cons] at hd
    push_neg at hd
    simp only [List.foldl_cons]
    rw [ih _ d hd.2, processDoc_docLengths, if_neg hd.1]

/-- Total token count over the whole pass. -/
theorem foldl_processDoc_totalLen :
    ∀ (c : List (Nat × List String)) (st : BuildState),
      (c.foldl processDoc st).totalLen =
        st.totalLen + (c.map (fun p => p.2.length)).sum := by
  intro c
  induction c with
  | nil => simp
  | cons p ps ih =>
    intro st
    simp only [List.foldl_cons, ih, processDoc_totalLen, List.map_cons,
      List.sum_cons]
    omega

theorem foldl_processDoc_unified_nodup :
    ∀ (c : List (Nat × List String)) (st : BuildState),
      (∀ k, (st.unifiedSets k).Nodup) →
      ∀ k, ((c.foldl processDoc st).unifiedSets k).Nodup := by
  intro c
  induction c with
  | nil => exact fun st h => h
  | cons p ps ih =>
    intro st h
    exact ih _ (processDoc_unified_nodup st p h)

theorem foldl_processDoc_wild_nodup :
    ∀ (c : List (Nat × List String)) (st : BuildState),
      (∀ g, (st.wildcardSets g).Nodup) →
      ∀ g, ((c.foldl processDoc st).wildcardSets g).Nodup := by
  intro c
  induction c with
  | nil => exact fun st h => h
  | cons p ps ih =>
    intro st h
    exact ih _ (processDoc_wild_nodup st p h)

/-- Postings membership of the built state. -/
theorem buildState_unified_mem (c : List (Nat × List String)) (k : TokGram) (d : Nat) :
    d ∈ ((buildState c).unifiedSets k) ↔ ∃ p, p ∈ c ∧ p.1 = d ∧ occursKey k p.2 := by
  unfold buildState
  rw [foldl_processDoc_unified_mem]
  simp [initState]

/-- Wildcard membership of the built state. -/
theorem buildState_wild_mem (c : List (Nat × List String)) (g : List Char) (t : String) :
    t ∈ ((buildState c).wildcardSets g) ↔
      ∃ p, p ∈ c ∧ t ∈ p.2 ∧ g ∈ charNgrams t.toList := by
  unfold buildState
  rw [foldl_processDoc_wild_mem]
  simp [initState]

/-- Position lists of the built state. -/
theorem buildState_prox (c : List (Nat × List String)) (k : TokGram) (d : Nat) :
    (buildState c).proxLists k d =
      c.flatMap (fun p => if d = p.1 then occPositions k p.2 else []) := by
  unfold buildState
  rw [foldl_processDoc_prox]
  rfl

theorem buildState_totalLen (c : List (Nat × List String)) :
    (buildState c).totalLen = (c.map (fun p => p.2.length)).sum := by
  unfold buildState
  rw [foldl_processDoc_totalLen]
  simp [initState]

theorem buildState_unified_nodup (c : List (Nat × List String)) (k : TokGram) :
    ((buildState c).unifiedSets k).Nodup :=
  foldl_processDoc_unified_nodup c initState (fun _ => List.nodup_nil) k

theorem buildState_wild_nodup (c : List (Nat × List String)) (g : List Char) :
    ((buildState c).wildcardSets g).Nodup :=
  foldl_processDoc_wild_nodup c initState (fun _ => List.nodup_nil) g

/-! ## The code-point lexicographic order -/

theorem lexLe_total : ∀ a b : List Char, lexLe a b = true ∨ lexLe b a = true := by
  intro a
  induction a with
  | nil => intro b; exact Or.inl rfl
  | cons x xs ih =>
    intro b
    cases b with
    | nil => exact Or.inr rfl
    | cons y ys =>
      unfold lexLe
      by_cases hxy : x.toNat < y.toNat
      · left
        rw [if_pos hxy]
      · by_cases hyx : y.toNat < x.toNat
        · right
          rw [if_pos hyx]
        · rcases ih ys with h | h
          · left
            rw [if_neg hxy, if_neg hyx]
            exact h
          · right
            rw [if_neg hyx, if_neg hxy]
            exact h

theorem lexLe_trans : ∀ a b c : List Char,
    lexLe a b = true → lexLe b c = true → lexLe a c = true := by
  intro a
  induction a with
  | nil => intro b c _ _; rfl
  | cons x xs ih =>
    intro b c hab hbc
    cases b with
    | nil => cases hab
    | cons y ys =>
      cases c with
      | nil => cases hbc
      | cons z zs =>
        unfold lexLe at hab hbc ⊢
        by_cases hxy : x.toNat < y.toNat
        · by_cases hyz : y.toNat < z.toNat
          · rw [if_pos (hxy.trans hyz)]
          · by_cases hzy : z.toNat < y.toNat
            · rw [if_neg hyz, if_pos hzy] at hbc
              cases hbc
            · rw [if_pos (show x.toNat < z.toNat by omega)]
        · by_cases hyx : y.toNat < x.toNat
          · rw [if_neg hxy, if_pos hyx] at hab
            cases hab
          · by_cases hyz : y.toNat < z.toNat
            · rw [if_pos (show x.toNat < z.toNat by omega)]
            · by_cases hzy : z.toNat < y.toNat
              · rw [if_neg hyz, if_pos hzy] at hbc
                cases hbc
              · rw [if_neg (by omega), if_neg (by omega)]
                rw [if_neg hxy, if_neg hyx] at hab
                rw [if_neg hyz, if_neg hzy] at hbc
                exact ih ys zs hab hbc

theorem lexLe_antisymm : ∀ a b : List Char,
    lexLe a b = true → lexLe b a = true → a = b := by
  intro a
  induction a with
  | nil =>
    intro b _ hba
    cases b with
    | nil => rfl
    | cons y ys => cases hba
  | cons x xs ih =>
    intro b hab hba
    cases b with
    | nil => cases hab
    | cons y ys =>
      unfold lexLe at hab hba
      by_cases hxy : x.toNat < y.toNat
      · rw [if_neg (by omega), if_pos hxy] at hba
        cases hba
      · by_cases hyx : y.toNat < x.toNat
        · rw [if_neg hxy, if_pos hyx] at hab
          cases hab
        · have hv : x.toNat = y.toNat := by omega
          have hc : x = y := by
            apply Char.ext
            unfold Char.toNat at hv
            exact UInt32.toNat.inj hv
          rw [if_neg hxy, if_neg hyx] at hab
          rw [if_neg hyx, if_neg hxy] at hba
          rw [hc, ih ys hab hba]

theorem strLe_antisymm_str : ∀ a b : String, strLe a b → strLe b a → a = b := by
  intro a b hab hba
  have h := lexLe_antisymm a.toList b.toList hab hba
  exact congrArg String.mk h

instance : IsTotal String strLe :=
  ⟨fun a b => lexLe_total a.toList b.toList⟩

instance : IsTrans String strLe :=
  ⟨fun a b c => lexLe_trans a.toList b.toList c.toList⟩

instance : IsAntisymm String strLe :=
  ⟨strLe_antisymm_str⟩

/-- Sorted duplicate-free lists under a reflexive-antisymmetric order are
strictly sorted. -/
theorem sorted_nodup_lt {l : List Nat} (hs : l.Sorted (· ≤ ·)) (hn : l.Nodup) :
    l.Sorted (· < ·) :=
  (hs.and hn).imp (fun h => lt_of_le_of_ne h.1 h.2)

theorem sorted_nodup_strLt {l : List String} (hs : l.Sorted strLe) (hn : l.Nodup) :
    l.Sorted strLt :=
  (hs.and hn).imp (fun h => ⟨h.1, h.2⟩)

/-- Two duplicate-free lists with the same members have the same sorted
form. -/
theorem insertionSort_eq_of_mem_nat {l1 l2 : List Nat} (h1 : l1.Nodup)
    (h2 : l2.Nodup) (hm : ∀ x, x ∈ l1 ↔ x ∈ l2) :
    List.insertionSort (· ≤ ·) l1 = List.insertionSort (· ≤ ·) l2 := by
  have hperm : l1.Perm l2 := (List.perm_ext_iff_of_nodup h1 h2).mpr hm
  exact List.eq_of_perm_of_sorted
    (((List.perm_insertionSort _ l1).trans hperm).trans
      (List.perm_insertionSort _ l2).symm)
    (List.sorted_insertionSort _ l1) (List.sorted_insertionSort _ l2)

theorem insertionSort_eq_of_mem_str {l1 l2 : List String} (h1 : l1.Nodup)
    (h2 : l2.Nodup) (hm : ∀ x, x ∈ l1 ↔ x ∈ l2) :
    List.insertionSort strLe l1 = List.insertionSort strLe l2 := by
  have hperm : l1.Perm l2 := (List.perm_ext_iff_of_nodup h1 h2).mpr hm
  exact List.eq_of_perm_of_sorted
    (((List.perm_insertionSort _ l1).trans hperm).trans
      (List.perm_insertionSort _ l2).symm)
    (List.sorted_insertionSort _ l1) (List.sorted_insertionSort _ l2)

/-! ## The builder on corpora with pairwise distinct document ids -/

/-- With distinct ids, `find?` by id finds exactly the unique matching pair. -/
theorem find_id_unique :
    ∀ (c : List (Nat × List String)), (c.map Prod.fst).Nodup →
      ∀ (d : Nat) (p : Nat × List String),
        c.find? (fun q => decide (q.1 = d)) = some p ↔ p ∈ c ∧ p.1 = d := by
  intro c
  induction c with
  | nil =>
    intro _ d p
    simp
  | cons q qs ih =>
    intro hnd d p
    simp only [List.map_cons, List.nodup_cons] at hnd
    by_cases hq : q.1 = d
    · rw [List.find?_cons_of_pos _ (by simp [hq])]
      constructor
      · rintro h
        cases h
        exact ⟨List.mem_cons_self _ _, hq⟩
      · rintro ⟨hmem, hpd⟩
        rcases List.mem_cons.mp hmem with rfl | hmem'
        · rfl
        · have hmm : p.1 ∈ qs.map Prod.fst := List.mem_map_of_mem Prod.fst hmem'
          rw [hpd, ← hq] at hmm
          exact absurd hmm hnd.1
    · rw [List.find?_cons_of_neg _ (by simp [hq])]
      rw [ih hnd.2 d p]
      constructor
      · rintro ⟨hmem, hpd⟩
        exact ⟨List.mem_cons_of_mem _ hmem, hpd⟩
      · rintro ⟨hmem, hpd⟩
        rcases List.mem_cons.mp hmem with rfl | hmem'
        · exact absurd hpd hq
        · exact ⟨hmem', hpd⟩

/-- Document lengths of the built state, with distinct ids: the length of the
unique document carrying the id. -/
theorem foldl_docLengths_nodup :
    ∀ (c : List (Nat × List String)) (st : BuildState) (d : Nat),
      (c.map Prod.fst).Nodup →
      (c.foldl processDoc st).docLengths d =
        (match c.find? (fun q => decide (q.1 = d)) with
         | some q => some q.2.length
         | none => st.docLengths d) := by
  intro c
  induction c with
  | nil => intro st d _; rfl
  | cons p ps ih =>
    intro st d hnd
    simp only [List.map_cons, List.nodup_cons] at hnd
    simp only [List.foldl_cons]
    by_cases hp : p.1 = d
    · rw [List.find?_cons_of_pos _ (by simp [hp])]
      have hnotin : ¬ d ∈ ps.map Prod.fst := hp ▸ hnd.1
      rw [foldl_processDoc_docLengths_notmem ps _ d hnotin,
        processDoc_docLengths, if_pos hp.symm]
    · rw [List.find?_cons_of_neg _ (by simp [hp])]
      rw [ih _ d hnd.2]
      cases ps.find? (fun q => decide (q.1 = d)) with
      | some q => rfl
      | none => rw [processDoc_docLengths, if_neg (fun hc => hp hc.symm)]

/-- With distinct ids, at most one document contributes to each per-document
position list. -/
theorem flatMap_prox_notmem (k : TokGram) (d : Nat) :
    ∀ (c : List (Nat × List String)), ¬ d ∈ c.map Prod.fst →
      c.flatMap (fun p => if d = p.1 then occPositions k p.2 else []) = [] := by
  intro c
  induction c with
  | nil => intro _; rfl
  | cons p ps ih =>
    intro hd
    simp only [List.map_cons, List.mem_cons] at hd
    push_neg at hd
    simp only [List.flatMap_cons, if_neg (fun hc => hd.1 hc), List.nil_append]
    exact ih hd.2

/-- Position lists of the built state with distinct ids. -/
theorem buildState_prox_nodup (c : List (Nat × List String))
    (hnd : (c.map Prod.fst).Nodup) (k : TokGram) (d : Nat) :
    (buildState c).proxLists k d =
      (match c.find? (fun q => decide (q.1 = d)) with
       | some q => occPositions k q.2
       | none => []) := by
  rw [buildState_prox]
  induction c with
  | nil => rfl
  | cons p ps ih =>
    simp only [List.map_cons, List.nodup_cons] at hnd
    by_cases hp : p.1 = d
    · rw [List.find?_cons_of_pos _ (by simp [hp])]
      simp only [List.flatMap_cons, if_pos hp.symm]
      rw [flatMap_prox_notmem k d ps (hp ▸ hnd.1)]
      simp
    · rw [List.find?_cons_of_neg _ (by simp [hp])]
      simp only [List.flatMap_cons, if_neg (fun hc : d = p.1 => hp hc.symm),
        List.nil_append]
      exact ih hnd.2

/-- `filterMap` with an identity-if body is `filter`. -/
theorem filterMap_if_eq_filter {α : Type} (p : α → Prop) [DecidablePred p] :
    ∀ l : List α,
      (l.filterMap fun i => if p i then some i else none) =
        l.filter (fun i => decide (p i)) := by
  intro l
  induction l with
  | nil => rfl
  | cons a l ih =>
    rw [List.filterMap_cons, List.filter_cons]
    by_cases ha : p a
    · rw [if_pos ha, if_pos (by simp [ha]), ih]
    · rw [if_neg ha, if_neg (by simp [ha]), ih]

/-- One block of the n-gram position extraction, as a filtered range. -/
theorem tokenNgramsN_filterMap (toks : List String) (n : Nat) (k : TokGram) :
    (tokenNgramsN toks n).filterMap (fun p => if p.1 = k then some p.2 else none) =
      (List.range (toks.length + 1 - n)).filter (fun i =>
        decide ((if n = 1 then TokGram.str (toks.getD i "")
          else TokGram.tup ((toks.drop i).take n)) = k)) := by
  unfold tokenNgramsN
  by_cases hlen : toks.length < n
  · rw [if_pos hlen]
    rw [show toks.length + 1 - n = 0 by omega]
    rfl
  · rw [if_neg hlen]
    rw [show toks.length - n + 1 = toks.length + 1 - n by omega]
    rw [List.filterMap_map]
    exact filterMap_if_eq_filter
      (fun i => (if n = 1 then TokGram.str (toks.getD i "")
        else TokGram.tup ((toks.drop i).take n)) = k) _

/-- Tuple blocks of arity `n ≥ 2` contribute nothing to the positions of a
tuple key of a different arity. -/
theorem tokenNgramsN_filter_ne (toks : List String) (n : Nat) (hn : 2 ≤ n)
    (l : List String) (hl : ¬ l.length = n) :
    (List.range (toks.length + 1 - n)).filter (fun i =>
      decide ((if n = 1 then TokGram.str (toks.getD i "")
        else TokGram.tup ((toks.drop i).take n)) = TokGram.tup l)) = [] := by
  rw [List.filter_eq_nil_iff]
  intro i hi
  rw [List.mem_range] at hi
  rw [if_neg (by omega), decide_eq_true_eq]
  intro hc
  have htake : ((toks.drop i).take n).length = n := by
    rw [List.length_take, List.length_drop]
    omega
  cases hc
  exact hl htake

/-- String blocks contribute nothing to the positions of a tuple key and vice
versa. -/
theorem tokenNgramsN_filter_kind (toks : List String) (n : Nat) (k : TokGram)
    (hkind : (n = 1 ∧ ∃ l, k = TokGram.tup l) ∨ (2 ≤ n ∧ ∃ s, k = TokGram.str s)) :
    (List.range (toks.length + 1 - n)).filter (fun i =>
      decide ((if n = 1 then TokGram.str (toks.getD i "")
        else TokGram.tup ((toks.drop i).take n)) = k)) = [] := by
  rw [List.filter_eq_nil_iff]
  intro i _
  rcases hkind with ⟨rfl, l, rfl⟩ | ⟨hn, s, rfl⟩
  · rw [if_pos rfl, decide_eq_true_eq]
    intro hc
    cases hc
  · rw [if_neg (by omega), decide_eq_true_eq]
    intro hc
    cases hc

/-- The filtered range blocks are strictly ascending. -/
theorem filter_range_sorted (m : Nat) (p : Nat → Bool) :
    ((List.range m).filter p).Sorted (· < ·) :=
  (List.pairwise_lt_range m).filter p

/-- The positions at which a key occurs in a document are strictly
ascending: only the block matching the key's arity contributes, and it is a
filtered range. -/
theorem occPositions_sorted (k : TokGram) (toks : List String) :
    (occPositions k toks).Sorted (· < ·) := by
  unfold occPositions tokenNgrams
  rw [List.filterMap_append, List.filterMap_append]
  rw [tokenNgramsN_filterMap toks 1 k, tokenNgramsN_filterMap toks 2 k,
    tokenNgramsN_filterMap toks 3 k]
  cases k with
  | str s =>
    rw [tokenNgramsN_filter_kind toks 2 _ (Or.inr ⟨by omega, s, rfl⟩),
      tokenNgramsN_filter_kind toks 3 _ (Or.inr ⟨by omega, s, rfl⟩),
      List.append_nil, List.append_nil]
    exact filter_range_sorted _ _
  | tup l =>
    rw [tokenNgramsN_filter_kind toks 1 _ (Or.inl ⟨rfl, l, rfl⟩), List.nil_append]
    by_cases h2 : l.length = 2
    · rw [tokenNgramsN_filter_ne toks 3 (by omega) l (by omega), List.append_nil]
      exact filter_range_sorted _ _
    · rw [tokenNgramsN_filter_ne toks 2 (by omega) l h2, List.nil_append]
      by_cases h3 : l.length = 3
      · exact filter_range_sorted _ _
      · rw [tokenNgramsN_filter_ne toks 3 (by omega) l h3]
        exact List.sorted_nil

/-- C6 counterexample: as stated over every corpus the claim is false, because
document ids are caller-supplied and may repeat. Supplying the same two
documents under the duplicate id 1 in the two orders yields different
packages (`doc_lengths[1]` keeps the last write), and with a repeated
document the per-document position list `[0, 0]` is not strictly ascending. -/
theorem index_build_order_dependent_counterexample :
    ([((1:Nat), ["a"]), (1, ["b", "c"])] : List (Nat × List String)).Perm
        [(1, ["b", "c"]), (1, ["a"])] ∧
      (create_all_indexes [((1:Nat), ["a"]), (1, ["b", "c"])]).docLengths 1 = some 2 ∧
      (create_all_indexes [((1:Nat), ["b", "c"]), (1, ["a"])]).docLengths 1 = some 1 ∧
      get_term_positions (create_all_indexes [((1:Nat), ["a"]), (1, ["a"])])
        (TokGram.str "a") 1 = [0, 0] ∧
      ¬ ([0, 0] : List Nat).Sorted (· < ·) := by
  refine ⟨List.Perm.swap _ _ _, by decide, by decide, by decide, ?_⟩
  intro h
  exact absurd ((List.pairwise_cons.mp h).1 0 (List.mem_singleton.mpr rfl))
    (lt_irrefl 0)

/-- Projection equations of `create_all_indexes`, all definitional. -/
theorem create_metaN_eq (c : List (Nat × List String)) :
    (create_all_indexes c).metaN = c.length := rfl

theorem create_avgdl_eq (c : List (Nat × List String)) :
    (create_all_indexes c).avgdl =
      if 0 < c.length then ((buildState c).totalLen : ℚ) / (c.length : ℚ) else 0 := rfl

theorem create_docLengths_eq (c : List (Nat × List String)) (d : Nat) :
    (create_all_indexes c).docLengths d = (buildState c).docLengths d := rfl

theorem create_unified_eq (c : List (Nat × List String)) (k : TokGram) :
    (create_all_indexes c).unified k =
      if (buildState c).unifiedSets k = [] then none
      else some (List.insertionSort (· ≤ ·) ((buildState c).unifiedSets k)) := rfl

theorem create_wildcard_eq (c : List (Nat × List String)) (g : List Char) :
    (create_all_indexes c).wildcard g =
      if (buildState c).wildcardSets g = [] then none
      else some (List.insertionSort strLe ((buildState c).wildcardSets g)) := rfl

theorem create_prox_eq (c : List (Nat × List String)) (k : TokGram) :
    (create_all_indexes c).prox k =
      if (buildState c).unifiedSets k = [] then none
      else some (fun d =>
        if (buildState c).proxLists k d = [] then none
        else some (List.insertionSort (· ≤ ·) ((buildState c).proxLists k d))) := rfl

/-- C6 (amended): for corpora whose document ids are pairwise distinct,
building is order-independent — the two packages agree on metadata, document
lengths, the unified postings dict, the wildcard dict and the (nested)
proximity dict — and in the built package every posting list and position
list is strictly ascending and every wildcard term list is strictly
lexicographically ascending (hence all duplicate-free). -/
theorem index_build_deterministic_sorted (c1 c2 : List (Nat × List String))
    (hperm : c1.Perm c2) (hnd : (c1.map Prod.fst).Nodup) :
    ((create_all_indexes c1).metaN = (create_all_indexes c2).metaN ∧
      (create_all_indexes c1).avgdl = (create_all_indexes c2).avgdl ∧
      (∀ d, (create_all_indexes c1).docLengths d =
        (create_all_indexes c2).docLengths d) ∧
      (∀ k, (create_all_indexes c1).unified k = (create_all_indexes c2).unified k) ∧
      (∀ g, (create_all_indexes c1).wildcard g = (create_all_indexes c2).wildcard g) ∧
      (∀ k, ((create_all_indexes c1).prox k = none ↔
          (create_all_indexes c2).prox k = none) ∧
        ∀ d, ((create_all_indexes c1).prox k).bind (fun m => m d) =
          ((create_all_indexes c2).prox k).bind (fun m => m d))) ∧
    ((∀ k l, (create_all_indexes c1).unified k = some l → l.Sorted (· < ·)) ∧
      (∀ g l, (create_all_indexes c1).wildcard g = some l → l.Sorted strLt) ∧
      (∀ k d l, ((create_all_indexes c1).prox k).bind (fun m => m d) = some l →
        l.Sorted (· < ·))) := by
  have hnd2 : (c2.map Prod.fst).Nodup := ((hperm.map Prod.fst).nodup_iff).mp hnd
  have hmemU : ∀ k d, d ∈ (buildState c1).unifiedSets k ↔
      d ∈ (buildState c2).unifiedSets k := by
    intro k d
    rw [buildState_unified_mem, buildState_unified_mem]
    constructor
    · rintro ⟨p, hp, h1, h2⟩
      exact ⟨p, hperm.mem_iff.mp hp, h1, h2⟩
    · rintro ⟨p, hp, h1, h2⟩
      exact ⟨p, hperm.mem_iff.mpr hp, h1, h2⟩
  have hmemW : ∀ g t, t ∈ (buildState c1).wildcardSets g ↔
      t ∈ (buildState c2).wildcardSets g := by
    intro g t
    rw [buildState_wild_mem, buildState_wild_mem]
    constructor
    · rintro ⟨p, hp, h1, h2⟩
      exact ⟨p, hperm.mem_iff.mp hp, h1, h2⟩
    · rintro ⟨p, hp, h1, h2⟩
      exact ⟨p, hperm.mem_iff.mpr hp, h1, h2⟩
  have hemptyU : ∀ k, (buildState c1).unifiedSets k = [] ↔
      (buildState c2).unifiedSets k = [] := by
    intro k
    rw [List.eq_nil_iff_forall_not_mem, List.eq_nil_iff_forall_not_mem]
    exact ⟨fun h d hd => h d ((hmemU k d).mpr hd),
      fun h d hd => h d ((hmemU k d).mp hd)⟩
  have hemptyW : ∀ g, (buildState c1).wildcardSets g = [] ↔
      (buildState c2).wildcardSets g = [] := by
    intro g
    rw [List.eq_nil_iff_forall_not_mem, List.eq_nil_iff_forall_not_mem]
    exact ⟨fun h t ht => h t ((hmemW g t).mpr ht),
      fun h t ht => h t ((hmemW g t).mp ht)⟩
  have hfind : ∀ d, c1.find? (fun q => decide (q.1 = d)) =
      c2.find? (fun q => decide (q.1 = d)) := by
    intro d
    cases hf : c1.find? (fun q => decide (q.1 = d)) with
    | some p =>
      obtain ⟨hp, hpd⟩ := (find_id_unique c1 hnd d p).mp hf
      exact ((find_id_unique c2 hnd2 d p).mpr ⟨hperm.mem_iff.mp hp, hpd⟩).symm
    | none =>
      cases hf2 : c2.find? (fun q => decide (q.1 = d)) with
      | none => rfl
      | some p =>
        obtain ⟨hp, hpd⟩ := (find_id_unique c2 hnd2 d p).mp hf2
        rw [(find_id_unique c1 hnd d p).mpr ⟨hperm.mem_iff.mpr hp, hpd⟩] at hf
        cases hf
  have hprox : ∀ k d, (buildState c1).proxLists k d = (buildState c2).proxLists k d := by
    intro k d
    rw [buildState_prox_nodup c1 hnd k d, buildState_prox_nodup c2 hnd2 k d, hfind d]
  refine ⟨⟨?_, ?_, ?_, ?_, ?_, ?_⟩, ?_, ?_, ?_⟩
  · rw [create_metaN_eq, create_metaN_eq, hperm.length_eq]
  · rw [create_avgdl_eq, create_avgdl_eq, buildState_totalLen, buildState_totalLen,
      hperm.length_eq, (hperm.map (fun p => p.2.length)).sum_eq]
  · intro d
    rw [create_docLengths_eq, create_docLengths_eq]
    show (c1.foldl processDoc initState).docLengths d =
      (c2.foldl processDoc initState).docLengths d
    rw [foldl_docLengths_nodup c1 initState d hnd,
      foldl_docLengths_nodup c2 initState d hnd2, hfind d]
  · intro k
    rw [create_unified_eq, create_unified_eq]
    by_cases h1 : (buildState c1).unifiedSets k = []
    · rw [if_pos h1, if_pos ((hemptyU k).mp h1)]
    · rw [if_neg h1, if_neg (fun hc => h1 ((hemptyU k).mpr hc))]
      rw [insertionSort_eq_of_mem_nat (buildState_unified_nodup c1 k)
        (buildState_unified_nodup c2 k) (hmemU k)]
  · intro g
    rw [create_wildcard_eq, create_wildcard_eq]
    by_cases h1 : (buildState c1).wildcardSets g = []
    · rw [if_pos h1, if_pos ((hemptyW g).mp h1)]
    · rw [if_neg h1, if_neg (fun hc => h1 ((hemptyW g).mpr hc))]
      rw [insertionSort_eq_of_mem_str (buildState_wild_nodup c1 g)
        (buildState_wild_nodup c2 g) (hmemW g)]
  · intro k
    constructor
    · rw [create_prox_eq, create_prox_eq]
      by_cases h1 : (buildState c1).unifiedSets k = []
      · rw [if_pos h1, if_pos ((hemptyU k).mp h1)]
      · rw [if_neg h1, if_neg (fun hc => h1 ((hemptyU k).mpr hc))]
        simp
    · intro d
      rw [create_prox_eq, create_prox_eq]
      by_cases h1 : (buildState c1).unifiedSets k = []
      · rw [if_pos h1, if_pos ((hemptyU k).mp h1)]
      · rw [if_neg h1, if_neg (fun hc => h1 ((hemptyU k).mpr hc))]
        rw [Option.some_bind, Option.some_bind]
        dsimp only
        rw [hprox k d]
  · intro k l hl
    rw [create_unified_eq] at hl
    have hl2 : l = List.insertionSort (· ≤ ·) ((buildState c1).unifiedSets k) := by
      by_cases h1 : (buildState c1).unifiedSets k = []
      · rw [if_pos h1] at hl
        cases hl
      · rw [if_neg h1] at hl
        cases hl
        rfl
    subst hl2
    refine sorted_nodup_lt (List.sorted_insertionSort _ _) ?_
    exact ((List.perm_insertionSort _ _).nodup_iff).mpr (buildState_unified_nodup c1 k)
  · intro g l hl
    rw [create_wildcard_eq] at hl
    have hl2 : l = List.insertionSort strLe ((buildState c1).wildcardSets g) := by
      by_cases h1 : (buildState c1).wildcardSets g = []
      · rw [if_pos h1] at hl
        cases hl
      · rw [if_neg h1] at hl
        cases hl
        rfl
    subst hl2
    refine sorted_nodup_strLt (List.sorted_insertionSort _ _) ?_
    exact ((List.perm_insertionSort _ _).nodup_iff).mpr (buildState_wild_nodup c1 g)
  · intro k d l hl
    rw [create_prox_eq] at hl
    by_cases h1 : (buildState c1).unifiedSets k = []
    · rw [if_pos h1] at hl
      cases hl
    · rw [if_neg h1, Option.some_bind] at hl
      dsimp only at hl
      by_cases h2 : (buildState c1).proxLists k d = []
      · rw [if_pos h2] at hl
        cases hl
      · rw [if_neg h2] at hl
        cases hl
        have hocc : ((buildState c1).proxLists k d).Sorted (· < ·) := by
          rw [buildState_prox_nodup c1 hnd k d]
          cases c1.find? (fun q => decide (q.1 = d)) with
          | some q => exact occPositions_sorted k q.2
          | none => exact List.sorted_nil
        refine sorted_nodup_lt (List.sorted_insertionSort _ _) ?_
        exact ((List.perm_insertionSort _ _).nodup_iff).mpr
          (hocc.imp (fun h => ne_of_lt h))

/-- Witness for C6 at a concrete two-document corpus supplied in two orders. -/
theorem index_build_deterministic_sorted_witness :
    (create_all_indexes [((1:Nat), ["a"]), (2, ["b"])]).unified (TokGram.str "a") =
      (create_all_indexes [((2:Nat), ["b"]), (1, ["a"])]).unified (TokGram.str "a") :=
  ((index_build_deterministic_sorted [((1:Nat), ["a"]), (2, ["b"])]
      [((2:Nat), ["b"]), (1, ["a"])] (List.Perm.swap _ _ _)
      (by decide)).1.2.2.2.1) (TokGram.str "a")

/-! ## The wildcard pattern analysis (query_processing/wildcard.py) -/

theorem infix_cons_of {l t : List Char} (c : Char) (h : l <:+: t) : l <:+: c :: t := by
  rcases h with ⟨s, t1, rfl⟩
  exact ⟨c :: s, t1, rfl⟩

theorem suffix_append_ch {l t : List Char} (r : List Char) (h : l <:+ t) :
    l ++ r <:+ t ++ r := by
  rcases h with ⟨pre, rfl⟩
  exact ⟨pre, (List.append_assoc pre l r).symm⟩

/-- The Python `in` substring test agrees with the infix relation. -/
theorem containsSub_iff (needle hay : List Char) :
    containsSub needle hay = true ↔ needle <:+: hay := by
  unfold containsSub
  rw [List.any_eq_true]
  constructor
  · rintro ⟨t, ht, hp⟩
    rw [List.isPrefixOf_iff_prefix] at hp
    exact List.infix_iff_prefix_suffix.mpr ⟨t, hp, (List.mem_tails t hay).mp ht⟩
  · intro h
    obtain ⟨s, hp, hs⟩ := List.infix_iff_prefix_suffix.mp h
    exact ⟨s, (List.mem_tails s hay).mpr hs, List.isPrefixOf_iff_prefix.mpr hp⟩

/-- A star-free pattern glob-matches exactly itself. -/
theorem globMatch_no_star :
    ∀ (p t : List Char), ¬ '*' ∈ p → (globMatch p t = true ↔ p = t) := by
  intro p
  induction p with
  | nil =>
    intro t _
    cases t with
    | nil => simp [globMatch]
    | cons c ts => simp [globMatch]
  | cons c ps ih =>
    intro t hstar
    have hc : ¬ c = '*' := fun hc => hstar (hc ▸ List.mem_cons_self c ps)
    have hps : ¬ '*' ∈ ps := fun hm => hstar (List.mem_cons_of_mem c hm)
    cases t with
    | nil =>
      unfold globMatch
      rw [if_neg hc]
      simp
    | cons d ts =>
      unfold globMatch
      rw [if_neg hc]
      simp only [Bool.and_eq_true, decide_eq_true_eq, ih ts hps, List.cons.injEq]

/-- A trailing block of stars matches any remaining text. -/
theorem globMatch_stars (b : Nat) (hb : 1 ≤ b) (t : List Char) :
    globMatch (List.replicate b '*') t = true := by
  induction b with
  | zero => omega
  | succ b ih =>
    rw [List.replicate_succ]
    unfold globMatch
    rw [if_pos rfl, List.any_eq_true]
    cases b with
    | zero =>
      refine ⟨[], ?_, by simp [globMatch]⟩
      rw [List.mem_tails]
      exact List.nil_suffix
    | succ b' =>
      exact ⟨t, by rw [List.mem_tails], ih (by omega)⟩

/-- Glob match against a star-free stem followed by stars forces the stem to
be a prefix. -/
theorem globMatch_prefix_of :
    ∀ (seg t : List Char) (b : Nat), ¬ '*' ∈ seg →
      globMatch (seg ++ List.replicate b '*') t = true → seg <+: t := by
  intro seg
  induction seg with
  | nil => intro t b _ _; exact List.nil_prefix
  | cons c ps ih =>
    intro t b hstar h
    have hc : ¬ c = '*' := fun hc => hstar (hc ▸ List.mem_cons_self c ps)
    have hps : ¬ '*' ∈ ps := fun hm => hstar (List.mem_cons_of_mem c hm)
    cases t with
    | nil =>
      rw [List.cons_append] at h
      unfold globMatch at h
      rw [if_neg hc] at h
      cases h
    | cons d ts =>
      rw [List.cons_append] at h
      unfold globMatch at h
      rw [if_neg hc] at h
      simp only [Bool.and_eq_true, decide_eq_true_eq] at h
      exact List.cons_prefix_cons.mpr ⟨h.1, ih ts b hps h.2⟩

/-- Glob match against leading stars yields a matching suffix. -/
theorem globMatch_suffix_of :
    ∀ (a : Nat) (l t : List Char),
      globMatch (List.replicate a '*' ++ l) t = true →
      ∃ t2, t2 <:+ t ∧ globMatch l t2 = true := by
  intro a
  induction a with
  | zero => intro l t h; exact ⟨t, List.suffix_rfl, h⟩
  | succ a ih =>
    intro l t h
    rw [List.replicate_succ, List.cons_append] at h
    unfold globMatch at h
    rw [if_pos rfl, List.any_eq_true] at h
    obtain ⟨t2, ht2, hm⟩ := h
    obtain ⟨t3, ht3, hm3⟩ := ih l t2 hm
    exact ⟨t3, ht3.trans ((List.mem_tails t2 t).mp ht2), hm3⟩

/-- Membership in the substring enumeration. -/
theorem mem_substringsOfLen {g s : List Char} {n : Nat} :
    g ∈ substringsOfLen s n ↔ g.length = n ∧ n ≤ s.length ∧ g <:+: s := by
  unfold substringsOfLen
  rw [List.mem_map]
  constructor
  · rintro ⟨i, hi, rfl⟩
    rw [List.mem_range] at hi
    have hlen : ((s.drop i).take n).length = n := by
      rw [List.length_take, List.length_drop]
      omega
    refine ⟨hlen, by omega, ?_⟩
    exact List.IsInfix.trans (List.IsPrefix.isInfix (List.take_prefix n (s.drop i)))
      (List.IsSuffix.isInfix (List.drop_suffix i s))
  · rintro ⟨hlen, hns, hinf⟩
    obtain ⟨l1, l2, rfl⟩ := hinf
    refine ⟨l1.length, ?_, ?_⟩
    · rw [List.mem_range]
      simp only [List.length_append]
      omega
    · rw [List.append_assoc, List.drop_left l1 (g ++ l2), ← hlen,
        List.take_left g l2]

/-- Completeness of the builder's character n-gram enumeration: every infix
of `$t$` of length 1..3 other than the bare `"$"` is produced. -/
theorem mem_charNgrams_of_infix {g t : List Char} (hinf : g <:+: augmented t)
    (h1 : 1 ≤ g.length) (h3 : g.length ≤ 3) (hne : ¬ g = ['$']) :
    g ∈ charNgrams t := by
  unfold charNgrams
  rw [List.mem_filter, List.mem_append, List.mem_append]
  have hlen : g.length ≤ (augmented t).length := List.IsInfix.length_le hinf
  refine ⟨?_, by simp [hne]⟩
  rcases (show g.length = 1 ∨ g.length = 2 ∨ g.length = 3 by omega) with h | h | h
  · exact Or.inl (Or.inl (mem_substringsOfLen.mpr ⟨h, by omega, hinf⟩))
  · exact Or.inl (Or.inr (mem_substringsOfLen.mpr ⟨h, by omega, hinf⟩))
  · exact Or.inr (mem_substringsOfLen.mpr ⟨h, by omega, hinf⟩)

theorem takeWhile_neStar_append (l1 l2 : List Char) (h : ¬ '*' ∈ l1) :
    (l1 ++ l2).takeWhile (· ≠ '*') = l1 ++ l2.takeWhile (· ≠ '*') := by
  induction l1 with
  | nil => simp
  | cons c cs ih =>
    rw [List.cons_append, List.takeWhile_cons,
      if_pos (by
        simp only [ne_eq, decide_eq_true_eq]
        exact fun hc => h (hc ▸ List.mem_cons_self c cs)),
      ih (fun hm => h (List.mem_cons_of_mem c hm)), List.cons_append]

theorem takeWhile_neStar_cons_star (l : List Char) :
    ('*' :: l).takeWhile (· ≠ '*') = [] := by
  rw [List.takeWhile_cons, if_neg (by simp)]

/-- The star-free core of a single-segment pattern is its segment. -/
theorem core_single_seg (a b : Nat) (seg : List Char) (hstar : ¬ '*' ∈ seg) :
    (List.replicate a '*' ++ seg ++ List.replicate b '*').filter (· ≠ '*') = seg := by
  rw [List.filter_append, List.filter_append]
  have h1 : ∀ (m : Nat), (List.replicate m '*').filter (· ≠ '*') = [] := by
    intro m
    refine List.filter_eq_nil_iff.mpr ?_
    intro c hc
    have hce := List.eq_of_mem_replicate hc
    subst hce
    simp
  have h2 : seg.filter (· ≠ '*') = seg := by
    refine List.filter_eq_self.mpr ?_
    intro c hc
    simp only [ne_eq, decide_eq_true_eq]
    exact fun hcs => hstar (hcs ▸ hc)
  rw [h1, h1, h2]
  simp

/-- Head of a pattern that starts with at least one star. -/
theorem head_pat_of_pos (a b : Nat) (seg : List Char) (ha : 1 ≤ a) :
    (List.replicate a '*' ++ seg ++ List.replicate b '*').head? = some '*' := by
  cases a with
  | zero => omega
  | succ a' =>
    rw [List.replicate_succ, List.cons_append, List.cons_append]
    rfl

/-- Head of a pattern with no leading star. -/
theorem head_pat_of_zero (b : Nat) (seg : List Char) (hseg : ¬ seg = [])
    (hstar : ¬ '*' ∈ seg) :
    ¬ (List.replicate 0 '*' ++ seg ++ List.replicate b '*').head? = some '*' := by
  cases seg with
  | nil => exact absurd rfl hseg
  | cons c cs =>
    rw [List.replicate_zero, List.nil_append, List.cons_append, List.head?_cons]
    intro h
    refine hstar ?_
    rw [← Option.some.inj h]
    exact List.mem_cons_self c cs

/-- Last element of a pattern that ends with at least one star. -/
theorem getLast_pat_of_pos (a b : Nat) (seg : List Char) (hb : 1 ≤ b) :
    (List.replicate a '*' ++ seg ++ List.replicate b '*').getLast? = some '*' := by
  rw [← List.head?_reverse, List.reverse_append, List.reverse_replicate]
  cases b with
  | zero => omega
  | succ b' =>
    rw [List.replicate_succ, List.cons_append, List.head?_cons]

/-- Last element of a pattern with no trailing star. -/
theorem getLast_pat_of_zero (a : Nat) (seg : List Char) (hseg : ¬ seg = [])
    (hstar : ¬ '*' ∈ seg) :
    ¬ (List.replicate a '*' ++ seg ++ List.replicate 0 '*').getLast? = some '*' := by
  rw [List.replicate_zero, List.append_nil, ← List.head?_reverse, List.reverse_append,
    List.reverse_replicate]
  cases hrev : seg.reverse with
  | nil => exact absurd (List.reverse_eq_nil_iff.mp hrev) hseg
  | cons c cs =>
    rw [List.cons_append, List.head?_cons]
    intro h
    have hcrev : c ∈ seg.reverse := by
      rw [hrev]
      exact List.mem_cons_self c cs
    refine hstar ?_
    rw [← Option.some.inj h]
    exact List.mem_reverse.mp hcrev

/-- The leading stem of a single-segment pattern with no leading star. -/
theorem splitFirstStar_pat (b : Nat) (seg : List Char) (hb : 1 ≤ b)
    (hstar : ¬ '*' ∈ seg) :
    splitFirstStar (List.replicate 0 '*' ++ seg ++ List.replicate b '*') = seg := by
  unfold splitFirstStar
  rw [List.replicate_zero, List.nil_append]
  cases b with
  | zero => omega
  | succ b' =>
    rw [List.replicate_succ, takeWhile_neStar_append seg _ hstar,
      takeWhile_neStar_cons_star, List.append_nil]

/-- The trailing stem of a single-segment pattern with no trailing star. -/
theorem rsplitLastStar_pat (a : Nat) (seg : List Char) (ha : 1 ≤ a)
    (hstar : ¬ '*' ∈ seg) :
    rsplitLastStar (List.replicate a '*' ++ seg ++ List.replicate 0 '*') = seg := by
  unfold rsplitLastStar
  rw [List.replicate_zero, List.append_nil, List.reverse_append, List.reverse_replicate]
  have hstar' : ¬ '*' ∈ seg.reverse := fun hm => hstar (List.mem_reverse.mp hm)
  cases a with
  | zero => omega
  | succ a' =>
    rw [List.replicate_succ, takeWhile_neStar_append seg.reverse _ hstar',
      takeWhile_neStar_cons_star, List.append_nil, List.reverse_reverse]

/-- Bounds and shape of the boundary grams built from the leading stem. -/
theorem mem_pre_grams {g seg : List Char} (hseg : ¬ seg = [])
    (h : g ∈ (if 1 ≤ seg.length then ['$' :: seg.take 1] else []) ++
          (if 2 ≤ seg.length then ['$' :: seg.take 2] else [])) :
    1 ≤ g.length ∧ g.length ≤ 3 ∧ ∃ k, 1 ≤ k ∧ k ≤ 2 ∧ g = '$' :: seg.take k := by
  have hlen : 1 ≤ seg.length := List.length_pos.mpr hseg
  rw [if_pos hlen] at h
  rcases List.mem_append.mp h with h1 | h2
  · rw [List.mem_singleton] at h1
    subst h1
    refine ⟨?_, ?_, 1, le_refl 1, by omega, rfl⟩
    · simp only [List.length_cons]
      omega
    · simp only [List.length_cons, List.length_take]
      omega
  · by_cases h2len : 2 ≤ seg.length
    · rw [if_pos h2len, List.mem_singleton] at h2
      subst h2
      refine ⟨?_, ?_, 2, by omega, le_refl 2, rfl⟩
      · simp only [List.length_cons]
        omega
      · simp only [List.length_cons, List.length_take]
        omega
    · rw [if_neg h2len] at h2
      cases h2

/-- Bounds and shape of the boundary grams built from the trailing stem. -/
theorem mem_suf_grams {g seg : List Char} (hseg : ¬ seg = [])
    (h : g ∈ (if 1 ≤ seg.length then [seg.drop (seg.length - 1) ++ ['$']] else []) ++
          (if 2 ≤ seg.length then [seg.drop (seg.length - 2) ++ ['$']] else [])) :
    1 ≤ g.length ∧ g.length ≤ 3 ∧
      ∃ k, 1 ≤ k ∧ k ≤ 2 ∧ k ≤ seg.length ∧ g = seg.drop (seg.length - k) ++ ['$'] := by
  have hlen : 1 ≤ seg.length := List.length_pos.mpr hseg
  rw [if_pos hlen] at h
  rcases List.mem_append.mp h with h1 | h2
  · rw [List.mem_singleton] at h1
    subst h1
    refine ⟨?_, ?_, 1, le_refl 1, by omega, hlen, rfl⟩
    · simp only [List.length_append, List.length_singleton]
      omega
    · simp only [List.length_append, List.length_drop, List.length_singleton]
      omega
  · by_cases h2len : 2 ≤ seg.length
    · rw [if_pos h2len, List.mem_singleton] at h2
      subst h2
      refine ⟨?_, ?_, 2, by omega, le_refl 2, h2len, rfl⟩
      · simp only [List.length_append, List.length_singleton]
        omega
      · simp only [List.length_append, List.length_drop, List.length_singleton]
        omega
    · rw [if_neg h2len] at h2
      cases h2

/-- Bounds and infix property of the core substring grams. -/
theorem mem_inner_substrings {g seg : List Char}
    (h : g ∈ substringsOfLen seg 3 ++ substringsOfLen seg 2 ++ substringsOfLen seg 1) :
    1 ≤ g.length ∧ g.length ≤ 3 ∧ g <:+: seg := by
  rcases List.mem_append.mp h with h' | h1
  · rcases List.mem_append.mp h' with h3 | h2
    · obtain ⟨hl, _, hinf⟩ := mem_substringsOfLen.mp h3
      exact ⟨by omega, by omega, hinf⟩
    · obtain ⟨hl, _, hinf⟩ := mem_substringsOfLen.mp h2
      exact ⟨by omega, by omega, hinf⟩
  · obtain ⟨hl, _, hinf⟩ := mem_substringsOfLen.mp h1
    exact ⟨by omega, by omega, hinf⟩

/-- Decomposition of the grams a single-segment pattern yields: boundary
grams of the leading stem (only when there is no leading star), boundary
grams of the trailing stem (only when there is no trailing star), or a
substring of the segment; all grams have length 1..3 and are neither empty
nor the bare dollar gram. -/
theorem mem_patternToNgrams_single (a b : Nat) (seg : List Char)
    (hseg : ¬ seg = []) (hstar : ¬ '*' ∈ seg) (hab : 1 ≤ a + b)
    {g : List Char}
    (hg : g ∈ patternToNgrams (List.replicate a '*' ++ seg ++ List.replicate b '*')) :
    (¬ g = [] ∧ ¬ g = ['$']) ∧ 1 ≤ g.length ∧ g.length ≤ 3 ∧
      ((a = 0 ∧ ∃ k, 1 ≤ k ∧ k ≤ 2 ∧ g = '$' :: seg.take k) ∨
       (b = 0 ∧ ∃ k, 1 ≤ k ∧ k ≤ 2 ∧ k ≤ seg.length ∧
          g = seg.drop (seg.length - k) ++ ['$']) ∨
       g <:+: seg) := by
  unfold patternToNgrams at hg
  dsimp only at hg
  rw [mem_dedupKeepFirst, List.mem_filter] at hg
  obtain ⟨hmem, hpred⟩ := hg
  rw [decide_eq_true_eq] at hpred
  refine ⟨hpred, ?_⟩
  rw [core_single_seg a b seg hstar] at hmem
  rcases Nat.eq_zero_or_pos a with ha | ha
  · subst ha
    have hb : 1 ≤ b := by omega
    rw [if_neg (head_pat_of_zero b seg hseg hstar)] at hmem
    rw [if_pos (getLast_pat_of_pos 0 b seg hb)] at hmem
    rw [splitFirstStar_pat b seg hb hstar] at hmem
    rw [List.append_nil] at hmem
    rcases List.mem_append.mp hmem with hpre | hin
    · obtain ⟨h1, h3, k, hk1, hk2, hgeq⟩ := mem_pre_grams hseg hpre
      exact ⟨h1, h3, Or.inl ⟨rfl, k, hk1, hk2, hgeq⟩⟩
    · obtain ⟨h1, h3, hinf⟩ := mem_inner_substrings hin
      exact ⟨h1, h3, Or.inr (Or.inr hinf)⟩
  · rw [if_pos (head_pat_of_pos a b seg ha)] at hmem
    rcases Nat.eq_zero_or_pos b with hb | hb
    · subst hb
      rw [if_neg (getLast_pat_of_zero a seg hseg hstar)] at hmem
      rw [rsplitLastStar_pat a seg ha hstar] at hmem
      rw [List.nil_append] at hmem
      rcases List.mem_append.mp hmem with hsuf | hin
      · obtain ⟨h1, h3, k, hk1, hk2, hkle, hgeq⟩ := mem_suf_grams hseg hsuf
        exact ⟨h1, h3, Or.inr (Or.inl ⟨rfl, k, hk1, hk2, hkle, hgeq⟩)⟩
      · obtain ⟨h1, h3, hinf⟩ := mem_inner_substrings hin
        exact ⟨h1, h3, Or.inr (Or.inr hinf)⟩
    · rw [if_pos (getLast_pat_of_pos a b seg hb)] at hmem
      rw [List.append_nil, List.nil_append] at hmem
      obtain ⟨h1, h3, hinf⟩ := mem_inner_substrings hmem
      exact ⟨h1, h3, Or.inr (Or.inr hinf)⟩

/-- Soundness of the derived grams for single-segment patterns: every gram is
an infix of the boundary-augmented form of every glob-matching term. -/
theorem wildcard_grams_sound (a b : Nat) (seg t : List Char)
    (hseg : ¬ seg = []) (hstar : ¬ '*' ∈ seg) (hab : 1 ≤ a + b)
    (hm : globMatch (List.replicate a '*' ++ seg ++ List.replicate b '*') t = true)
    {g : List Char}
    (hg : g ∈ patternToNgrams (List.replicate a '*' ++ seg ++ List.replicate b '*')) :
    g <:+: augmented t := by
  obtain ⟨-, -, -, hcases⟩ := mem_patternToNgrams_single a b seg hseg hstar hab hg
  have hm' := hm
  rw [List.append_assoc] at hm'
  obtain ⟨t2, ht2, hm2⟩ := globMatch_suffix_of a (seg ++ List.replicate b '*') t hm'
  rcases hcases with ⟨ha, k, hk1, hk2, hgeq⟩ | ⟨hb, k, hk1, hk2, hkle, hgeq⟩ | hinf
  · subst ha
    subst hgeq
    have hm0 : globMatch (seg ++ List.replicate b '*') t = true := by
      rw [List.replicate_zero, List.nil_append] at hm'
      exact hm'
    have hpre : seg <+: t := globMatch_prefix_of seg t b hstar hm0
    refine List.IsPrefix.isInfix ?_
    unfold augmented
    refine List.cons_prefix_cons.mpr ⟨rfl, ?_⟩
    exact (( List.take_prefix k seg).trans hpre).trans (List.prefix_append t ['$'])
  · subst hb
    subst hgeq
    rw [List.replicate_zero, List.append_nil] at hm2
    have hteq : seg = t2 := (globMatch_no_star seg t2 hstar).mp hm2
    have hsuf : seg <:+ t := by
      rw [hteq]
      exact ht2
    refine List.IsSuffix.isInfix ?_
    have h1' : seg.drop (seg.length - k) <:+ seg := List.drop_suffix _ _
    have h2' := suffix_append_ch ['$'] h1'
    have h3' := suffix_append_ch ['$'] hsuf
    have h4' : t ++ ['$'] <:+ augmented t := ⟨['$'], rfl⟩
    exact h2'.trans (h3'.trans h4')
  · have hpre2 : seg <+: t2 := globMatch_prefix_of seg t2 b hstar hm2
    have hsegt : seg <:+: t :=
      List.IsInfix.trans (List.IsPrefix.isInfix hpre2) (List.IsSuffix.isInfix ht2)
    have htaug : t <:+: augmented t := ⟨['$'], ['$'], rfl⟩
    exact hinf.trans (hsegt.trans htaug)

/-- A single-segment pattern always yields at least one gram: the unigram of
the segment's head character survives the filter. -/
theorem patternToNgrams_single_ne (a b : Nat) (seg : List Char)
    (hseg : ¬ seg = []) (hstar : ¬ '*' ∈ seg) (hdollar : ¬ '$' ∈ seg) :
    ¬ patternToNgrams (List.replicate a '*' ++ seg ++ List.replicate b '*') = [] := by
  cases seg with
  | nil => exact absurd rfl hseg
  | cons c cs =>
    intro hnil
    have hmem : [c] ∈
        patternToNgrams (List.replicate a '*' ++ (c :: cs) ++ List.replicate b '*') := by
      unfold patternToNgrams
      dsimp only
      rw [mem_dedupKeepFirst, List.mem_filter]
      constructor
      · rw [List.mem_append]
        refine Or.inr ?_
        rw [core_single_seg a b (c :: cs) hstar]
        rw [List.mem_append]
        refine Or.inr ?_
        rw [mem_substringsOfLen]
        exact ⟨rfl, by simp, ⟨[], cs, rfl⟩⟩
      · rw [decide_eq_true_eq]
        refine ⟨by simp, ?_⟩
        intro hq
        have h1 : c = '$' := by
          injection hq
        refine hdollar ?_
        rw [← h1]
        exact List.mem_cons_self c cs
    rw [hnil] at hmem
    exact absurd hmem (List.not_mem_nil [c])

/-- Membership in the embedded Python set intersection of term lists. -/
theorem mem_strInter {t : String} {a b : List String} :
    t ∈ strInter a b ↔ t ∈ a ∧ t ∈ b := by
  simp [strInter, List.mem_filter]

/-- Membership in the candidate fold of `_expand_terms`. -/
theorem mem_interFold (pkg : Package) (gs : List (List Char)) :
    ∀ (acc : List String) (t : String),
      t ∈ gs.foldl (fun acc g => strInter acc (find_wildcard_matches pkg g)) acc ↔
        t ∈ acc ∧ ∀ g ∈ gs, t ∈ find_wildcard_matches pkg g := by
  induction gs with
  | nil =>
    intro acc t
    simp
  | cons g gs ih =>
    intro acc t
    rw [List.foldl_cons, ih, mem_strInter]
    constructor
    · rintro ⟨⟨h1, h2⟩, h3⟩
      refine ⟨h1, ?_⟩
      intro g' hg'
      rcases List.mem_cons.mp hg' with rfl | hm
      exacts [h2, h3 g' hm]
    · rintro ⟨h1, h2⟩
      exact ⟨⟨h1, h2 g (List.mem_cons_self g gs)⟩,
        fun g' hg' => h2 g' (List.mem_cons_of_mem g hg')⟩

/-- Membership in the postings-union fold of `process_wildcard_query`. -/
theorem mem_unionFold (pkg : Package) (ts : List String) :
    ∀ (acc : List Nat) (d : Nat),
      d ∈ ts.foldl
          (fun results t => setUnion results (get_posting_list pkg (TokGram.str t)))
          acc ↔
        d ∈ acc ∨ ∃ t ∈ ts, d ∈ get_posting_list pkg (TokGram.str t) := by
  induction ts with
  | nil =>
    intro acc d
    simp
  | cons t ts ih =>
    intro acc d
    rw [List.foldl_cons, ih, mem_setUnion]
    constructor
    · rintro ((h | h) | ⟨t', ht', hd⟩)
      · exact Or.inl h
      · exact Or.inr ⟨t, List.mem_cons_self t ts, h⟩
      · exact Or.inr ⟨t', List.mem_cons_of_mem t ht', hd⟩
    · rintro (h | ⟨t', ht', hd⟩)
      · exact Or.inl (Or.inl h)
      · rcases List.mem_cons.mp ht' with rfl | hm
        · exact Or.inl (Or.inr hd)
        · exact Or.inr ⟨t', hm, hd⟩

/-- A string containing `*` does not strip to the empty string. -/
theorem pyStrip_ne_nil_of_star {l : List Char} (hc : '*' ∈ l) :
    ¬ pyStrip l = [] := by
  intro h
  unfold pyStrip at h
  rw [List.reverse_eq_nil_iff, List.dropWhile_eq_nil_iff] at h
  have hcd : '*' ∈ l.dropWhile Char.isWhitespace := by
    have hsplit : l.takeWhile Char.isWhitespace ++ l.dropWhile Char.isWhitespace = l := by
      rw [List.takeWhile_append_dropWhile]
    rw [← hsplit] at hc
    rcases List.mem_append.mp hc with h1 | h1
    · have := List.mem_takeWhile_imp h1
      simp at this
    · exact h1
  have := h '*' (List.mem_reverse.mpr hcd)
  simp at this

/-- The 1-gram keys of a document are exactly its tokens as `str` keys. -/
theorem str_tokenNgramsN_one (t : String) (toks : List String) :
    TokGram.str t ∈ (tokenNgramsN toks 1).map Prod.fst ↔ t ∈ toks := by
  unfold tokenNgramsN
  by_cases h : toks.length < 1
  · rw [if_pos h]
    have hnil : toks = [] := by
      cases toks with
      | nil => rfl
      | cons x xs => simp at h
    subst hnil
    simp
  · rw [if_neg h, List.map_map]
    constructor
    · intro hmem
      obtain ⟨i, hi, heq⟩ := List.mem_map.mp hmem
      rw [List.mem_range] at hi
      simp only [Function.comp_apply, if_true] at heq
      injection heq with h'
      rw [← h']
      have hi' : i < toks.length := by omega
      rw [List.getD_eq_getElem toks "" hi']
      exact List.getElem_mem hi'
    · intro ht
      obtain ⟨i, hi, hget⟩ := List.mem_iff_getElem.mp ht
      refine List.mem_map.mpr ⟨i, ?_, ?_⟩
      · rw [List.mem_range]
        omega
      · simp only [Function.comp_apply, if_true]
        rw [List.getD_eq_getElem toks "" hi, hget]

/-- No n-gram key with n at least 2 is a `str` key. -/
theorem str_tokenNgramsN_big (t : String) (toks : List String) (n : Nat) (hn : 2 ≤ n) :
    ¬ TokGram.str t ∈ (tokenNgramsN toks n).map Prod.fst := by
  unfold tokenNgramsN
  by_cases h : toks.length < n
  · rw [if_pos h]
    simp
  · rw [if_neg h, List.map_map]
    intro hmem
    obtain ⟨i, hi, heq⟩ := List.mem_map.mp hmem
    simp only [Function.comp_apply] at heq
    rw [if_neg (by omega)] at heq
    cases heq

/-- A `str` key occurs in a document iff the string is one of its tokens. -/
theorem occursKey_str (t : String) (toks : List String) :
    occursKey (TokGram.str t) toks ↔ t ∈ toks := by
  unfold occursKey tokenNgrams
  rw [List.map_append, List.map_append, List.mem_append, List.mem_append]
  constructor
  · rintro ((h | h) | h)
    · exact (str_tokenNgramsN_one t toks).mp h
    · exact absurd h (str_tokenNgramsN_big t toks 2 (by omega))
    · exact absurd h (str_tokenNgramsN_big t toks 3 (by omega))
  · intro h
    exact Or.inl (Or.inl ((str_tokenNgramsN_one t toks).mpr h))

/-- Postings of a unigram term in the built package, at membership level. -/
theorem posting_built_mem (c : List (Nat × List String)) (t : String) (d : Nat) :
    d ∈ get_posting_list (create_all_indexes c) (TokGram.str t) ↔
      ∃ p, p ∈ c ∧ p.1 = d ∧ t ∈ p.2 := by
  unfold get_posting_list
  rw [create_unified_eq]
  by_cases h : (buildState c).unifiedSets (TokGram.str t) = []
  · rw [if_pos h]
    dsimp only
    constructor
    · intro hd
      exact absurd hd (List.not_mem_nil d)
    · rintro ⟨p, hp, hpd, htp⟩
      have hmem := (buildState_unified_mem c (TokGram.str t) d).mpr
        ⟨p, hp, hpd, (occursKey_str t p.2).mpr htp⟩
      rw [h] at hmem
      exact absurd hmem (List.not_mem_nil d)
  · rw [if_neg h]
    dsimp only
    rw [List.Perm.mem_iff (List.perm_insertionSort _ _), buildState_unified_mem]
    constructor
    · rintro ⟨p, hp, hpd, hk⟩
      exact ⟨p, hp, hpd, (occursKey_str t p.2).mp hk⟩
    · rintro ⟨p, hp, hpd, htp⟩
      exact ⟨p, hp, hpd, (occursKey_str t p.2).mpr htp⟩

/-- Wildcard-index lookup in the built package, at membership level. -/
theorem wildmatch_built_mem (c : List (Nat × List String)) (g : List Char) (t : String) :
    t ∈ find_wildcard_matches (create_all_indexes c) g ↔
      ∃ p, p ∈ c ∧ t ∈ p.2 ∧ g ∈ charNgrams t.toList := by
  unfold find_wildcard_matches
  rw [create_wildcard_eq]
  by_cases h : (buildState c).wildcardSets g = []
  · rw [if_pos h]
    dsimp only
    constructor
    · intro hd
      exact absurd hd (List.not_mem_nil t)
    · rintro ⟨p, hp, htp, hcn⟩
      have hmem := (buildState_wild_mem c g t).mpr ⟨p, hp, htp, hcn⟩
      rw [h] at hmem
      exact absurd hmem (List.not_mem_nil t)
  · rw [if_neg h]
    dsimp only
    rw [List.Perm.mem_iff (List.perm_insertionSort _ _), buildState_wild_mem]

/-- Membership in `_expand_terms`: a term survives iff it is in every gram's
wildcard bucket and matches the whole pattern as a glob. -/
theorem mem_expandTerms (pkg : Package) (pat : List Char) (t : String)
    (hne : ¬ patternToNgrams pat = []) :
    t ∈ expandTerms pkg pat ↔
      (∀ g ∈ patternToNgrams pat, t ∈ find_wildcard_matches pkg g) ∧
        globMatch pat t.toList = true := by
  unfold expandTerms
  cases hq : patternToNgrams pat with
  | nil => exact absurd hq hne
  | cons g0 rest =>
    dsimp only
    rw [List.Perm.mem_iff (List.perm_insertionSort strLe _), List.mem_filter,
      mem_interFold]
    constructor
    · rintro ⟨⟨h0, hrest⟩, hglob⟩
      refine ⟨?_, hglob⟩
      intro g hg
      rcases List.mem_cons.mp hg with rfl | hm
      exacts [h0, hrest g hm]
    · rintro ⟨hall, hglob⟩
      exact ⟨⟨hall g0 (List.mem_cons_self g0 rest),
        fun g hg => hall g (List.mem_cons_of_mem g0 hg)⟩, hglob⟩

/-- Membership in `process_wildcard_query` when the guards pass: the union of
the postings of the expanded terms. -/
theorem mem_process_wildcard (pkg : Package) (pat : List Char) (d : Nat)
    (hstar : '*' ∈ pat) (hstrip : ¬ pyStrip pat = []) :
    d ∈ process_wildcard_query pkg (String.mk pat) ↔
      ∃ t ∈ expandTerms pkg pat, d ∈ get_posting_list pkg (TokGram.str t) := by
  unfold process_wildcard_query
  rw [show (String.mk pat).toList = pat from rfl]
  rw [if_neg (by
    rintro (hno | hstrip')
    · refine hno ?_
      rw [List.any_eq_true]
      exact ⟨'*', hstar, by simp⟩
    · exact hstrip hstrip')]
  rw [mem_unionFold]
  constructor
  · rintro (h | h)
    · exact absurd h (List.not_mem_nil d)
    · exact h
  · exact Or.inr

/-- Counterexample to C2 as stated: the core substrings of `_pattern_to_ngrams`
are taken from the concatenation of all non-star characters, so they can span
across a star. For the pattern a*b the derived gram ab is not a substring of
the augmented form of the matching term axb, so the term is filtered out and
the query returns the empty set instead of the posting list of axb. -/
theorem wildcard_cross_segment_counterexample :
    globMatch "a*b".toList "axb".toList = true ∧
    "ab".toList ∈ patternToNgrams "a*b".toList ∧
    containsSub "ab".toList (augmented "axb".toList) = false ∧
    get_posting_list (create_all_indexes [((0 : Nat), ["axb"])])
      (TokGram.str "axb") = [0] ∧
    process_wildcard_query (create_all_indexes [((0 : Nat), ["axb"])]) "a*b" = [] := by
  decide

/-- C2 (amended): for a wildcard pattern whose non-star characters form one
contiguous nonempty run free of stars and of the boundary marker (so the
pattern is a block of stars, then the run, then a block of stars, with at
least one star in total), every character n-gram derived by
`_pattern_to_ngrams` is a substring of the boundary-augmented form of every
term matching the pattern as an anchored glob, and on an index built from any
corpus `process_wildcard_query` returns exactly the union of the posting lists
of the indexed unigram terms matching the pattern as a glob. -/
theorem wildcard_single_segment_semantics
    (corpus : List (Nat × List String)) (a b : Nat) (seg : List Char)
    (hseg : ¬ seg = []) (hstar : ¬ '*' ∈ seg) (hdollar : ¬ '$' ∈ seg)
    (hab : 1 ≤ a + b) (d : Nat) :
    (∀ t : List Char,
        globMatch (List.replicate a '*' ++ seg ++ List.replicate b '*') t = true →
        ∀ g ∈ patternToNgrams (List.replicate a '*' ++ seg ++ List.replicate b '*'),
          containsSub g (augmented t) = true) ∧
    (d ∈ process_wildcard_query (create_all_indexes corpus)
        (String.mk (List.replicate a '*' ++ seg ++ List.replicate b '*')) ↔
      ∃ t : String,
        globMatch (List.replicate a '*' ++ seg ++ List.replicate b '*') t.toList = true ∧
        d ∈ get_posting_list (create_all_indexes corpus) (TokGram.str t)) := by
  have hstar_pat : '*' ∈ List.replicate a '*' ++ seg ++ List.replicate b '*' := by
    rcases Nat.eq_zero_or_pos a with ha | ha
    · rw [List.mem_append]
      exact Or.inr (List.mem_replicate.mpr ⟨by omega, rfl⟩)
    · rw [List.mem_append, List.mem_append]
      exact Or.inl (Or.inl (List.mem_replicate.mpr ⟨by omega, rfl⟩))
  constructor
  · intro t hm g hg
    rw [containsSub_iff]
    exact wildcard_grams_sound a b seg t hseg hstar hab hm hg
  · rw [mem_process_wildcard _ _ _ hstar_pat (pyStrip_ne_nil_of_star hstar_pat)]
    constructor
    · rintro ⟨t, hts, hd⟩
      have hexp := (mem_expandTerms _ _ t
        (patternToNgrams_single_ne a b seg hseg hstar hdollar)).mp hts
      exact ⟨t, hexp.2, hd⟩
    · rintro ⟨t, hglob, hd⟩
      refine ⟨t, ?_, hd⟩
      rw [mem_expandTerms _ _ t (patternToNgrams_single_ne a b seg hseg hstar hdollar)]
      refine ⟨?_, hglob⟩
      intro g hg
      obtain ⟨p, hp, hpd, htp⟩ := (posting_built_mem corpus t d).mp hd
      have hinf := wildcard_grams_sound a b seg t.toList hseg hstar hab hglob hg
      obtain ⟨⟨hne, hnq⟩, h1, h3, -⟩ :=
        mem_patternToNgrams_single a b seg hseg hstar hab hg
      have hcn : g ∈ charNgrams t.toList := mem_charNgrams_of_infix hinf h1 h3 hnq
      rw [wildmatch_built_mem]
      exact ⟨p, hp, htp, hcn⟩

/-- Witness for C2 (amended) at the pattern ax* over the corpus [(0, [axb])]:
document 0 is returned because axb matches the glob and holds the term. -/
theorem wildcard_single_segment_semantics_witness :
    (0 : Nat) ∈ process_wildcard_query (create_all_indexes [((0 : Nat), ["axb"])])
      (String.mk (List.replicate 0 '*' ++ "ax".toList ++ List.replicate 1 '*')) :=
  ((wildcard_single_segment_semantics [((0 : Nat), ["axb"])] 0 1 "ax".toList
      (by decide) (by decide) (by decide) (by decide) 0).2).mpr
    ⟨"axb", by decide, by decide⟩
